import Mathlib

/-!
Verification development for the block-chain synchronization engine of
cpp-ethereum (`libethereum/BlockChainSync.h`).

The repository provides the class declaration `BlockChainSync` with its data
members (including their in-class initializers) and the inline definitions of
`HeaderId::operator==` and `HeaderIdHash::operator()`.  The method bodies are
not part of the provided sources, so the engine's operations are modelled from
the specification's description of the sync state machine, the peer registry,
the content store/deduplicator and the block assembler.  Each such definition
carries a doc comment starting with `Modelled from the spec:`.

The model is a functional state machine: the engine state `Sync` mirrors the
data members of the C++ class, every operation is a total function
`Sync → Sync`, and `Step`/`Reachable` describe the executions of the engine.
C++ containers are embedded as lists of entries:
  * `std::map<unsigned, std::vector<Header>> m_headers` (index → ordered
    candidate headers) becomes a flat entry list `List (Nat × Header)`, the
    sequence of candidates at index `n` being the sublist of entries with
    key `n` in order;
  * the peer-assignment maps `m_headerSyncPeers`/`m_bodySyncPeers`
    (peer → assigned indices) become flat lists of (peer, index) pairs;
  * `std::unordered_map<HeaderId, unsigned, HeaderIdHash>` becomes an
    association list `List (HeaderId × Nat)`.
Machine integers (`unsigned` block numbers, `size_t` hash seeds) are embedded
as `Nat`, with an explicit `% 2 ^ 64` where `size_t` overflow matters.
-/

namespace BCSync

/-- Abstract 256-bit hash value (`dev::h256`); the hash bytes are opaque to
this engine, only equality matters, so it is embedded as `Nat`. -/
abbrev H256 := Nat

/-- Raw byte payloads (`dev::bytes`). -/
abbrev Bytes := List Nat

/-- Peer identity.  The C++ code holds `std::weak_ptr<EthereumPeer>` keys; the
spec directs modelling them as stable peer-identity handles, embedded as
`Nat`. -/
abbrev PeerId := Nat

/-- Mirrors `BlockChainSync::Header`: raw header bytes plus the cached hash.
Modelled from the spec in addition: the (transactions-root, uncles-hash)
fields that the engine extracts from the encoded header via external RLP
parsing are carried alongside the raw data. -/
structure Header where
  data : Bytes
  hash : H256
  transactionsRoot : H256
  uncles : H256
deriving DecidableEq, Repr

/-- Mirrors `BlockChainSync::HeaderId`: the content-identity key
(transactions-root, uncles-hash). -/
structure HeaderId where
  transactionsRoot : H256
  uncles : H256
deriving DecidableEq, Repr

/-- Mirrors `HeaderId::operator==` from the source: field-wise comparison of
`transactionsRoot` and `uncles`. -/
def headerIdEqSrc (a b : HeaderId) : Bool :=
  decide (a.transactionsRoot = b.transactionsRoot) && decide (a.uncles = b.uncles)

/-- One step of `boost::hash_combine` on a `size_t` seed:
`seed ^= hasher(v) + 0x9e3779b9 + (seed << 6) + (seed >> 2)`, with `size_t`
embedded as `Nat` reduced modulo `2 ^ 64`. -/
def hashCombine (seed v : Nat) : Nat :=
  (seed ^^^ (v + 0x9e3779b9 + seed * 64 + seed / 4)) % 2 ^ 64

/-- Mirrors `HeaderIdHash::operator()` from the source: combine the hashes of
the two fields into a seed starting from 0.  The external `h256::hash`
function is abstracted as an arbitrary deterministic function `f`. -/
def headerIdHash (f : H256 → Nat) (k : HeaderId) : Nat :=
  hashCombine (hashCombine 0 (f k.transactionsRoot)) (f k.uncles)

/-- Content-identity key of a stored header. -/
def Header.hid (h : Header) : HeaderId :=
  ⟨h.transactionsRoot, h.uncles⟩

/-- Block body: raw body bytes.  Modelled from the spec in addition: the
content identity (transactions-root, uncles-hash) computed externally from the
body's transactions and uncle list is carried alongside the raw data. -/
structure Body where
  data : Bytes
  transactionsRoot : H256
  uncles : H256
deriving DecidableEq, Repr

/-- Content-identity key of a downloaded body. -/
def Body.bid (b : Body) : HeaderId :=
  ⟨b.transactionsRoot, b.uncles⟩

/-- Sync-state tag (`SyncState` of `CommonNet.h`, states as enumerated by the
spec's state machine plus the `NotSynced` initial value from the source). -/
inductive SyncState where
  | NotSynced
  | Idle
  | FindingCommonAncestor
  | DownloadingHeaders
  | DownloadingBodies
  | Waiting
  | Complete
deriving DecidableEq, Repr

/-- The engine state: the data members of `BlockChainSync`, plus a model of
the downstream import queue (`bqRoom`: the queue currently has room;
`imported`: the log of blocks pushed to the queue so far). -/
structure Sync where
  state : SyncState
  startingBlock : Nat
  highestBlock : Nat
  lastImportedBlock : Nat
  chainPeer : Option PeerId
  haveCommonHeader : Bool
  downloadingHeaders : List Nat
  downloadingBodies : List Nat
  headers : List (Nat × Header)
  bodies : List (Nat × Body)
  headerSyncPeers : List (PeerId × Nat)
  bodySyncPeers : List (PeerId × Nat)
  headerIdToNumber : List (HeaderId × Nat)
  bqRoom : Bool
  imported : List (Nat × Header × Body)
deriving DecidableEq, Repr

/-- The freshly constructed engine, per the in-class member initializers of
`BlockChainSync.h`: `m_state = SyncState::NotSynced`, zero watermarks, empty
containers, no chain peer, `m_haveCommonHeader = false`.  The modelled import
queue starts empty (it has room) with no block pushed yet. -/
def initSync : Sync :=
  { state := SyncState.NotSynced
    startingBlock := 0
    highestBlock := 0
    lastImportedBlock := 0
    chainPeer := none
    haveCommonHeader := false
    downloadingHeaders := []
    downloadingBodies := []
    headers := []
    bodies := []
    headerSyncPeers := []
    bodySyncPeers := []
    headerIdToNumber := []
    bqRoom := true
    imported := [] }

/-- Indices currently assigned to peer `p` in an assignment table, in
assignment order. -/
def assignedTo (p : PeerId) (l : List (PeerId × Nat)) : List Nat :=
  (l.filter (fun e => decide (e.1 = p))).map (fun e => e.2)

/-- Ordered sequence of candidate headers stored at index `n`. -/
def headersAt (n : Nat) (s : Sync) : List (Nat × Header) :=
  s.headers.filter (fun e => decide (e.1 = n))

/-- Ordered sequence of bodies stored at index `n`. -/
def bodiesAt (n : Nat) (s : Sync) : List (Nat × Body) :=
  s.bodies.filter (fun e => decide (e.1 = n))

/-- Remove every entry stored at index `n` from an index-keyed entry list. -/
def eraseKey (n : Nat) (l : List (Nat × α)) : List (Nat × α) :=
  l.filter (fun e => decide (e.1 ≠ n))

/-- First match in the content-identity map `m_headerIdToNumber`. -/
def idLookup (k : HeaderId) : List (HeaderId × Nat) → Option Nat
  | [] => none
  | e :: t => if e.1 = k then some e.2 else idLookup k t

/-- First candidate header stored at index `n` (the deterministic
representative used for tie-breaking). -/
def firstHeaderAt (n : Nat) : List (Nat × Header) → Option Header
  | [] => none
  | e :: t => if e.1 = n then some e.2 else firstHeaderAt n t

/-- Does the store hold a body of content identity `k` at index `n`? -/
def hasBody (s : Sync) (n : Nat) (k : HeaderId) : Bool :=
  s.bodies.any (fun e => decide (e.1 = n) && decide (e.2.bid = k))

/-- First body stored at index `t` whose content identity is `k`. -/
def findBody (t : Nat) (k : HeaderId) : List (Nat × Body) → Option Body
  | [] => none
  | e :: l => if e.1 = t ∧ e.2.bid = k then some e.2 else findBody t k l

/-- First header at index `n` that has a matching stored body (equal content
identity), together with that body: the deterministic header/body pair the
assembler uses at index `n`. -/
def pickHeader (n : Nat) (bodies : List (Nat × Body)) :
    List (Nat × Header) → Option (Header × Body)
  | [] => none
  | e :: t =>
    if e.1 = n then
      match findBody n e.2.hid bodies with
      | some b => some (e.2, b)
      | none => pickHeader n bodies t
    else pickHeader n bodies t

/-- The assembler's header/body pair at index `n` of state `s`, if any. -/
def pickPair (s : Sync) (n : Nat) : Option (Header × Body) :=
  pickHeader n s.bodies s.headers

/-- Index `n` has a complete (header, matching body) pair. -/
def completeAt (s : Sync) (n : Nat) : Bool :=
  (pickPair s n).isSome

/-- Index `i` is the canonical owner of its first header's content identity:
the content-identity map sends that identity back to `i`.  Only canonical
indices are ever scheduled for a body fetch, which is what prevents a second
download of a shared body. -/
def canonical (s : Sync) (i : Nat) : Bool :=
  match firstHeaderAt i s.headers with
  | none => false
  | some h => decide (idLookup h.hid s.headerIdToNumber = some i)

/-- Modelled from the spec: `requestBlocks` in the header phase.  Emits a
block of unassigned header indices to peer `p`: every index must be missing
(above the last-imported watermark and not yet stored) and not currently
downloading.  The indices are inserted into `m_downloadingHeaders` and the
peer→indices mapping is recorded in `m_headerSyncPeers`.  If the request is
not a valid fresh assignment the state is unchanged. -/
def requestHeaders (p : PeerId) (l : List Nat) (s : Sync) : Sync :=
  if l ≠ [] ∧ ∀ i ∈ l, s.lastImportedBlock < i ∧ i ∉ s.downloadingHeaders ∧
      ∀ e ∈ s.headers, e.1 ≠ i then
    { s with downloadingHeaders := s.downloadingHeaders ++ l
             headerSyncPeers := s.headerSyncPeers ++ l.map (fun i => (p, i)) }
  else s

/-- Modelled from the spec: `requestBlocks` in the body phase.  Emits a block
of body indices to peer `p`: every index must be above the last-imported
watermark, not currently downloading, still lacking a matching body, and the
canonical owner of its header's content identity (so a body shared between
forked headers is fetched at most once). -/
def requestBodies (p : PeerId) (l : List Nat) (s : Sync) : Sync :=
  if l ≠ [] ∧ ∀ i ∈ l, s.lastImportedBlock < i ∧ i ∉ s.downloadingBodies ∧
      completeAt s i = false ∧ canonical s i = true then
    { s with downloadingBodies := s.downloadingBodies ++ l
             bodySyncPeers := s.bodySyncPeers ++ l.map (fun i => (p, i)) }
  else s

/-- Modelled from the spec: `clearPeerDownload(peer)` — releases every index
owned by peer `p` back to the unassigned pool (both phases) and deletes the
peer's assignment entries. -/
def clearPeerDownload (p : PeerId) (s : Sync) : Sync :=
  { s with
    downloadingHeaders :=
      s.downloadingHeaders.filter (fun i => decide (i ∉ assignedTo p s.headerSyncPeers))
    downloadingBodies :=
      s.downloadingBodies.filter (fun i => decide (i ∉ assignedTo p s.bodySyncPeers))
    headerSyncPeers := s.headerSyncPeers.filter (fun e => decide (e.1 ≠ p))
    bodySyncPeers := s.bodySyncPeers.filter (fun e => decide (e.1 ≠ p)) }

/-- Modelled from the spec: content-identity bookkeeping when a header with
identity `k` is stored at index `n`.  If the identity is new it is recorded as
`k ↦ n` in `m_headerIdToNumber`; if it is already known and the owning index
already holds the shared body, the body is reused for `n` without a second
download and any pending body fetch of `n` is cancelled. -/
def dedupCopy (n : Nat) (k : HeaderId) (s : Sync) : Sync :=
  match idLookup k s.headerIdToNumber with
  | none => { s with headerIdToNumber := s.headerIdToNumber ++ [(k, n)] }
  | some t =>
    match findBody t k s.bodies with
    | none => s
    | some b =>
      if hasBody s n k then s
      else
        { s with bodies := s.bodies ++ [(n, b)]
                 downloadingBodies := s.downloadingBodies.filter (fun i => decide (i ≠ n))
                 bodySyncPeers := s.bodySyncPeers.filter (fun e => decide (e.2 ≠ n)) }

/-- Modelled from the spec: storing one delivered header at index `n`.  A
header at or below the last-imported watermark is skipped (I2: nothing is
re-imported); otherwise the header is appended to the candidate sequence at
`n`, the highest-seen watermark advances, index `n` is resolved out of the
header downloading set and assignment table, and the content-identity
deduplication runs. -/
def storeHeader (n : Nat) (h : Header) (s : Sync) : Sync :=
  if n ≤ s.lastImportedBlock then s
  else
    dedupCopy n h.hid
      { s with headers := s.headers ++ [(n, h)]
               highestBlock := max s.highestBlock n
               downloadingHeaders := s.downloadingHeaders.filter (fun i => decide (i ≠ n))
               headerSyncPeers := s.headerSyncPeers.filter (fun e => decide (e.2 ≠ n)) }

/-- Modelled from the spec: `onPeerBlockHeaders`.  The batch is validated
against the peer's outstanding header assignment (same indices, in requested
order); on success every header is stored and the peer's assignment is
cleared; an unsolicited or mis-ordered batch is discarded wholesale and the
peer is penalized by `clearPeerDownload`. -/
def onPeerBlockHeaders (p : PeerId) (batch : List (Nat × Header)) (s : Sync) : Sync :=
  if batch ≠ [] ∧ batch.map (fun e => e.1) = assignedTo p s.headerSyncPeers then
    let s1 := batch.foldl (fun st e => storeHeader e.1 e.2 st) s
    { s1 with headerSyncPeers := s1.headerSyncPeers.filter (fun e => decide (e.1 ≠ p)) }
  else clearPeerDownload p s

/-- Indices whose stored headers share content identity `k` but which do not
yet hold a body of that identity: the indices a newly downloaded shared body
satisfies. -/
def copyTargets (k : HeaderId) (s : Sync) : List Nat :=
  (s.headers.filter (fun e => decide (e.2.hid = k) && !hasBody s e.1 k)).map (fun e => e.1)

/-- Modelled from the spec: storing one delivered body.  The body's content
identity is resolved through `m_headerIdToNumber` (a body that resolves to no
known header is discarded); if the owning index is already satisfied the body
is skipped (short-circuit: already satisfied); otherwise the body is stored
for every index whose header shares the identity, and those indices are
resolved out of the body downloading set and assignment table. -/
def storeBody (b : Body) (s : Sync) : Sync :=
  match idLookup b.bid s.headerIdToNumber with
  | none => s
  | some t =>
    if hasBody s t b.bid then s
    else
      { s with bodies := s.bodies ++ (copyTargets b.bid s).map (fun m => (m, b))
               downloadingBodies :=
                 s.downloadingBodies.filter (fun i => decide (i ∉ copyTargets b.bid s))
               bodySyncPeers :=
                 s.bodySyncPeers.filter (fun e => decide (e.2 ∉ copyTargets b.bid s)) }

/-- Modelled from the spec: `onPeerBlockBodies`.  A batch from a peer with an
outstanding body assignment is stored body-by-body (with content-identity
deduplication); afterwards the peer's body assignment is cleared and its
remaining indices are released.  A batch from a peer with no outstanding body
assignment is discarded and the peer penalized by `clearPeerDownload`. -/
def onPeerBlockBodies (p : PeerId) (bs : List Body) (s : Sync) : Sync :=
  if bs ≠ [] ∧ assignedTo p s.bodySyncPeers ≠ [] then
    let s1 := bs.foldl (fun st b => storeBody b st) s
    { s1 with
      downloadingBodies :=
        s1.downloadingBodies.filter (fun i => decide (i ∉ assignedTo p s1.bodySyncPeers))
      bodySyncPeers := s1.bodySyncPeers.filter (fun e => decide (e.1 ≠ p)) }
  else clearPeerDownload p s

/-- Modelled from the spec: removal of an imported index from every download
and storage table (headers, bodies, downloading sets, peer assignment maps,
and its content-identity entries). -/
def importIndex (n : Nat) (s : Sync) : Sync :=
  { s with headers := eraseKey n s.headers
           bodies := eraseKey n s.bodies
           downloadingHeaders := s.downloadingHeaders.filter (fun i => decide (i ≠ n))
           downloadingBodies := s.downloadingBodies.filter (fun i => decide (i ≠ n))
           headerSyncPeers := s.headerSyncPeers.filter (fun e => decide (e.2 ≠ n))
           bodySyncPeers := s.bodySyncPeers.filter (fun e => decide (e.2 ≠ n))
           headerIdToNumber := s.headerIdToNumber.filter (fun e => decide (e.2 ≠ n)) }

/-- Modelled from the spec: the contiguous scan of `collectBlocks`, with fuel
to make the recursion structural (each iteration erases at least one stored
header, so `s.headers.length + 1` fuel always suffices).  At each step the
index after the last-imported watermark is inspected; if it has a complete
header/body pair the block is assembled, pushed to the import queue, the
watermark advances and the index is removed from all tables; the scan stops
at the first gap. -/
def collectGo : Nat → Sync → Sync
  | 0, s => s
  | fuel + 1, s =>
    match pickPair s (s.lastImportedBlock + 1) with
    | none => s
    | some (h, b) =>
      collectGo fuel
        { importIndex (s.lastImportedBlock + 1) s with
            lastImportedBlock := s.lastImportedBlock + 1
            imported := s.imported ++ [(s.lastImportedBlock + 1, h, b)] }

/-- Modelled from the spec: `collectBlocks()`.  Blocks are assembled and
pushed only while the import queue has room; with no room no push occurs. -/
def collectBlocks (s : Sync) : Sync :=
  if s.bqRoom then collectGo (s.headers.length + 1) s else s

/-- Modelled from the spec: `resetSync` — every per-round table is cleared. -/
def resetSync (s : Sync) : Sync :=
  { s with downloadingHeaders := []
           downloadingBodies := []
           headers := []
           bodies := []
           headerSyncPeers := []
           bodySyncPeers := []
           headerIdToNumber := [] }

/-- Modelled from the spec: `abortSync()` — immediately cancels all
assignments, clears every table and returns to `Idle` regardless of the
current state. -/
def abortSync (s : Sync) : Sync :=
  { resetSync s with state := SyncState.Idle }

/-- Modelled from the spec: `restartSync()` — resets all tables and restarts
the round at common-ancestor discovery. -/
def restartSync (s : Sync) : Sync :=
  { resetSync s with state := SyncState.FindingCommonAncestor, haveCommonHeader := false }

/-- Modelled from the spec: `completeSync()` — once the last-imported
watermark has reached the highest-seen block with no outstanding assignments,
the per-round tables are cleared and the engine returns to `Idle`. -/
def completeSyncStep (s : Sync) : Sync :=
  if s.lastImportedBlock = s.highestBlock ∧ s.headerSyncPeers = [] ∧ s.bodySyncPeers = [] then
    { resetSync s with state := SyncState.Idle }
  else s

/-- Modelled from the spec: `pauseSync()` — enter the waiting state. -/
def pauseSync (s : Sync) : Sync :=
  { s with state := SyncState.Waiting }

/-- Modelled from the spec: the import queue signalling that it has no room:
the room flag drops and the engine enters `Waiting` via `pauseSync`. -/
def queueFull (s : Sync) : Sync :=
  pauseSync { s with bqRoom := false }

/-- Modelled from the spec: `continueSync()`, triggered by the import queue's
room-available signal — from `Waiting` the engine re-enters the downloading
state with the room flag restored (the re-issued `requestBlocks` calls are the
subsequent request steps); in any other state it does nothing. -/
def continueSync (s : Sync) : Sync :=
  if s.state = SyncState.Waiting then
    { s with state := SyncState.DownloadingHeaders, bqRoom := true }
  else s

/-- Modelled from the spec: `isSyncing()` — true while a sync round is in
progress (common-ancestor search, either downloading phase, or waiting on
backpressure). -/
def isSyncing (s : Sync) : Bool :=
  match s.state with
  | SyncState.FindingCommonAncestor => true
  | SyncState.DownloadingHeaders => true
  | SyncState.DownloadingBodies => true
  | SyncState.Waiting => true
  | _ => false

/-- One engine operation of the modelled downloading/assembly fragment (the
status/new-block/new-hash announcement handlers are outside the modelled
fragment; they do not touch the download tables). -/
inductive Step : Sync → Sync → Prop where
  | reqH (p : PeerId) (l : List Nat) (s : Sync) : Step s (requestHeaders p l s)
  | reqB (p : PeerId) (l : List Nat) (s : Sync) : Step s (requestBodies p l s)
  | gotHeaders (p : PeerId) (batch : List (Nat × Header)) (s : Sync) :
      Step s (onPeerBlockHeaders p batch s)
  | gotBodies (p : PeerId) (bs : List Body) (s : Sync) :
      Step s (onPeerBlockBodies p bs s)
  | collect (s : Sync) : Step s (collectBlocks s)
  | peerGone (p : PeerId) (s : Sync) : Step s (clearPeerDownload p s)
  | abort (s : Sync) : Step s (abortSync s)
  | restart (s : Sync) : Step s (restartSync s)
  | finish (s : Sync) : Step s (completeSyncStep s)
  | noRoom (s : Sync) : Step s (queueFull s)
  | roomAgain (s : Sync) : Step s (continueSync s)

/-- Engine states reachable from the freshly constructed engine. -/
inductive Reachable : Sync → Prop where
  | init : Reachable initSync
  | step {s s' : Sync} : Reachable s → Step s s' → Reachable s'

/-- The engine invariant maintained by every operation: assignment uniqueness
and mirroring, all table indices strictly above the last-imported watermark,
watermark ordering, backpressure consistency, a strictly increasing import
log, and distinct content-identity keys. -/
structure Inv (s : Sync) : Prop where
  pairH : ∀ e ∈ s.headerSyncPeers, ∀ e' ∈ s.headerSyncPeers, e.2 = e'.2 → e.1 = e'.1
  pairB : ∀ e ∈ s.bodySyncPeers, ∀ e' ∈ s.bodySyncPeers, e.2 = e'.2 → e.1 = e'.1
  subH : ∀ e ∈ s.headerSyncPeers, e.2 ∈ s.downloadingHeaders
  subB : ∀ e ∈ s.bodySyncPeers, e.2 ∈ s.downloadingBodies
  hdrAbove : ∀ e ∈ s.headers, s.lastImportedBlock < e.1 ∧ e.1 ≤ s.highestBlock
  bodAbove : ∀ e ∈ s.bodies, s.lastImportedBlock < e.1
  dlHAbove : ∀ i ∈ s.downloadingHeaders, s.lastImportedBlock < i
  dlBAbove : ∀ i ∈ s.downloadingBodies, s.lastImportedBlock < i
  wm : s.lastImportedBlock ≤ s.highestBlock
  wait : s.state = SyncState.Waiting → s.bqRoom = false
  impInc : List.Pairwise (· < ·) (s.imported.map (fun e => e.1))
  impLe : ∀ m ∈ s.imported.map (fun e => e.1), m ≤ s.lastImportedBlock
  idKeys : List.Pairwise (fun e e' => e.1 ≠ e'.1) s.headerIdToNumber

theorem mem_assignedTo {p : PeerId} {i : Nat} {l : List (PeerId × Nat)} :
    i ∈ assignedTo p l ↔ (p, i) ∈ l := by
  simp only [assignedTo, List.mem_map, List.mem_filter, decide_eq_true_eq]
  constructor
  · rintro ⟨e, ⟨he, hp⟩, hi⟩
    have : e = (p, i) := by cases e; simp_all
    exact this ▸ he
  · intro h
    exact ⟨(p, i), ⟨h, rfl⟩, rfl⟩

theorem idLookup_eq_none_iff {k : HeaderId} {l : List (HeaderId × Nat)} :
    idLookup k l = none ↔ ∀ e ∈ l, e.1 ≠ k := by
  induction l with
  | nil => simp [idLookup]
  | cons e t ih =>
    by_cases h : e.1 = k <;> simp [idLookup, h, ih]

theorem idLookup_some_mem {k : HeaderId} {n : Nat} {l : List (HeaderId × Nat)}
    (h : idLookup k l = some n) : (k, n) ∈ l := by
  induction l with
  | nil => simp [idLookup] at h
  | cons e t ih =>
    by_cases he : e.1 = k
    · simp only [idLookup, if_pos he, Option.some.injEq] at h
      subst h
      have hk : (k, e.2) = e := by cases e; simp_all
      rw [hk]
      exact List.mem_cons_self _ _
    · simp only [idLookup, if_neg he] at h
      exact List.mem_cons_of_mem _ (ih h)

theorem findBody_some {t : Nat} {k : HeaderId} {b : Body} {l : List (Nat × Body)}
    (h : findBody t k l = some b) : (t, b) ∈ l ∧ b.bid = k := by
  induction l with
  | nil => simp [findBody] at h
  | cons e rest ih =>
    by_cases he : e.1 = t ∧ e.2.bid = k
    · simp only [findBody, if_pos he, Option.some.injEq] at h
      subst h
      refine ⟨?_, he.2⟩
      have hk : (t, e.2) = e := by cases e; simp_all
      rw [hk]
      exact List.mem_cons_self _ _
    · simp only [findBody, if_neg he] at h
      have := ih h
      exact ⟨List.mem_cons_of_mem _ this.1, this.2⟩

theorem pickHeader_some {n : Nat} {bodies : List (Nat × Body)} {l : List (Nat × Header)}
    {h : Header} {b : Body} (hp : pickHeader n bodies l = some (h, b)) :
    (n, h) ∈ l ∧ (n, b) ∈ bodies ∧ b.bid = h.hid := by
  induction l with
  | nil => simp [pickHeader] at hp
  | cons e t ih =>
    by_cases he : e.1 = n
    · simp only [pickHeader, if_pos he] at hp
      cases hfb : findBody n e.2.hid bodies with
      | none =>
        rw [hfb] at hp
        have := ih hp
        exact ⟨List.mem_cons_of_mem _ this.1, this.2⟩
      | some b' =>
        rw [hfb, Option.some.injEq, Prod.mk.injEq] at hp
        obtain ⟨rfl, rfl⟩ := hp
        have hb := findBody_some hfb
        refine ⟨?_, hb.1, hb.2⟩
        have hk : (n, e.2) = e := by cases e; simp_all
        rw [hk]
        exact List.mem_cons_self _ _
    · simp only [pickHeader, if_neg he] at hp
      have := ih hp
      exact ⟨List.mem_cons_of_mem _ this.1, this.2⟩

theorem mem_copyTargets {k : HeaderId} {s : Sync} {m : Nat}
    (hm : m ∈ copyTargets k s) :
    ∃ h : Header, (m, h) ∈ s.headers ∧ h.hid = k ∧ hasBody s m k = false := by
  simp only [copyTargets, List.mem_map, List.mem_filter] at hm
  obtain ⟨e, ⟨he, hcond⟩, hme⟩ := hm
  rw [Bool.and_eq_true, decide_eq_true_eq, Bool.not_eq_true'] at hcond
  subst hme
  refine ⟨e.2, ?_, hcond.1, hcond.2⟩
  have hk : (e.1, e.2) = e := by cases e; rfl
  rw [hk]
  exact he

theorem hasBody_iff {s : Sync} {n : Nat} {k : HeaderId} :
    hasBody s n k = true ↔ ∃ b : Body, (n, b) ∈ s.bodies ∧ b.bid = k := by
  simp only [hasBody, List.any_eq_true, Bool.and_eq_true, decide_eq_true_eq]
  constructor
  · rintro ⟨e, he, h1, h2⟩
    refine ⟨e.2, ?_, h2⟩
    have hk : (n, e.2) = e := by cases e; simp_all
    rw [hk]
    exact he
  · rintro ⟨b, hb, hk⟩
    exact ⟨(n, b), hb, rfl, hk⟩

theorem inv_requestHeaders (p : PeerId) (l : List Nat) {s : Sync} (hs : Inv s) :
    Inv (requestHeaders p l s) := by
  unfold requestHeaders
  split
  case isFalse => exact hs
  case isTrue hg =>
    obtain ⟨-, hg⟩ := hg
    refine
      { pairH := ?_, pairB := hs.pairB, subH := ?_, subB := hs.subB,
        hdrAbove := hs.hdrAbove, bodAbove := hs.bodAbove,
        dlHAbove := ?_, dlBAbove := hs.dlBAbove, wm := hs.wm, wait := hs.wait,
        impInc := hs.impInc, impLe := hs.impLe, idKeys := hs.idKeys }
    · intro e he e' he' h2
      rw [List.mem_append] at he he'
      rcases he with he | he <;> rcases he' with he' | he'
      · exact hs.pairH e he e' he' h2
      · obtain ⟨i, hi, rfl⟩ := List.mem_map.1 he'
        have h2' : e.2 = i := h2
        exact absurd (hs.subH e he) (fun hc => (hg i hi).2.1 (h2' ▸ hc))
      · obtain ⟨i, hi, rfl⟩ := List.mem_map.1 he
        have h2' : i = e'.2 := h2
        exact absurd (hs.subH e' he') (h2' ▸ (hg i hi).2.1)
      · obtain ⟨i, hi, rfl⟩ := List.mem_map.1 he
        obtain ⟨j, hj, rfl⟩ := List.mem_map.1 he'
        rfl
    · intro e he
      rw [List.mem_append] at he
      rcases he with he | he
      · exact List.mem_append_left _ (hs.subH e he)
      · obtain ⟨i, hi, rfl⟩ := List.mem_map.1 he
        exact List.mem_append_right _ hi
    · intro i hi
      rw [List.mem_append] at hi
      rcases hi with hi | hi
      · exact hs.dlHAbove i hi
      · exact (hg i hi).1

theorem inv_requestBodies (p : PeerId) (l : List Nat) {s : Sync} (hs : Inv s) :
    Inv (requestBodies p l s) := by
  unfold requestBodies
  split
  case isFalse => exact hs
  case isTrue hg =>
    obtain ⟨-, hg⟩ := hg
    refine
      { pairH := hs.pairH, pairB := ?_, subH := hs.subH, subB := ?_,
        hdrAbove := hs.hdrAbove, bodAbove := hs.bodAbove,
        dlHAbove := hs.dlHAbove, dlBAbove := ?_, wm := hs.wm, wait := hs.wait,
        impInc := hs.impInc, impLe := hs.impLe, idKeys := hs.idKeys }
    · intro e he e' he' h2
      rw [List.mem_append] at he he'
      rcases he with he | he <;> rcases he' with he' | he'
      · exact hs.pairB e he e' he' h2
      · obtain ⟨i, hi, rfl⟩ := List.mem_map.1 he'
        have h2' : e.2 = i := h2
        exact absurd (hs.subB e he) (fun hc => (hg i hi).2.1 (h2' ▸ hc))
      · obtain ⟨i, hi, rfl⟩ := List.mem_map.1 he
        have h2' : i = e'.2 := h2
        exact absurd (hs.subB e' he') (h2' ▸ (hg i hi).2.1)
      · obtain ⟨i, hi, rfl⟩ := List.mem_map.1 he
        obtain ⟨j, hj, rfl⟩ := List.mem_map.1 he'
        rfl
    · intro e he
      rw [List.mem_append] at he
      rcases he with he | he
      · exact List.mem_append_left _ (hs.subB e he)
      · obtain ⟨i, hi, rfl⟩ := List.mem_map.1 he
        exact List.mem_append_right _ hi
    · intro i hi
      rw [List.mem_append] at hi
      rcases hi with hi | hi
      · exact hs.dlBAbove i hi
      · exact (hg i hi).1

theorem inv_clearPeerDownload (p : PeerId) {s : Sync} (hs : Inv s) :
    Inv (clearPeerDownload p s) := by
  unfold clearPeerDownload
  refine
    { pairH := ?_, pairB := ?_, subH := ?_, subB := ?_,
      hdrAbove := hs.hdrAbove, bodAbove := hs.bodAbove,
      dlHAbove := ?_, dlBAbove := ?_, wm := hs.wm, wait := hs.wait,
      impInc := hs.impInc, impLe := hs.impLe, idKeys := hs.idKeys }
  · intro e he e' he' h2
    exact hs.pairH e (List.mem_of_mem_filter he) e' (List.mem_of_mem_filter he') h2
  · intro e he e' he' h2
    exact hs.pairB e (List.mem_of_mem_filter he) e' (List.mem_of_mem_filter he') h2
  · intro e he
    rw [List.mem_filter, decide_eq_true_eq] at he
    rw [List.mem_filter, decide_eq_true_eq]
    refine ⟨hs.subH e he.1, fun hmem => ?_⟩
    exact he.2 (hs.pairH e he.1 (p, e.2) (mem_assignedTo.1 hmem) rfl)
  · intro e he
    rw [List.mem_filter, decide_eq_true_eq] at he
    rw [List.mem_filter, decide_eq_true_eq]
    refine ⟨hs.subB e he.1, fun hmem => ?_⟩
    exact he.2 (hs.pairB e he.1 (p, e.2) (mem_assignedTo.1 hmem) rfl)
  · intro i hi
    exact hs.dlHAbove i (List.mem_of_mem_filter hi)
  · intro i hi
    exact hs.dlBAbove i (List.mem_of_mem_filter hi)

theorem inv_dedupCopy (n : Nat) (k : HeaderId) {s : Sync} (hs : Inv s)
    (hn : s.lastImportedBlock < n) : Inv (dedupCopy n k s) := by
  unfold dedupCopy
  cases hid : idLookup k s.headerIdToNumber with
  | none =>
    dsimp only
    refine
      { pairH := hs.pairH, pairB := hs.pairB, subH := hs.subH, subB := hs.subB,
        hdrAbove := hs.hdrAbove, bodAbove := hs.bodAbove,
        dlHAbove := hs.dlHAbove, dlBAbove := hs.dlBAbove, wm := hs.wm, wait := hs.wait,
        impInc := hs.impInc, impLe := hs.impLe, idKeys := ?_ }
    rw [List.pairwise_append]
    refine ⟨hs.idKeys, List.pairwise_singleton _ _, ?_⟩
    intro e he e' he'
    rw [List.mem_singleton] at he'
    subst he'
    exact idLookup_eq_none_iff.1 hid e he
  | some t =>
    dsimp only
    cases hfb : findBody t k s.bodies with
    | none => exact hs
    | some b =>
      dsimp only
      split
      case isTrue => exact hs
      case isFalse =>
        refine
          { pairH := hs.pairH, pairB := ?_, subH := hs.subH, subB := ?_,
            hdrAbove := hs.hdrAbove, bodAbove := ?_,
            dlHAbove := hs.dlHAbove, dlBAbove := ?_, wm := hs.wm, wait := hs.wait,
            impInc := hs.impInc, impLe := hs.impLe, idKeys := hs.idKeys }
        · intro e he e' he' h2
          exact hs.pairB e (List.mem_of_mem_filter he) e' (List.mem_of_mem_filter he') h2
        · intro e he
          rw [List.mem_filter, decide_eq_true_eq] at he
          rw [List.mem_filter, decide_eq_true_eq]
          exact ⟨hs.subB e he.1, he.2⟩
        · intro e he
          rw [List.mem_append] at he
          rcases he with he | he
          · exact hs.bodAbove e he
          · rw [List.mem_singleton] at he
            subst he
            exact hn
        · intro i hi
          exact hs.dlBAbove i (List.mem_of_mem_filter hi)

theorem inv_storeHeader (n : Nat) (h : Header) {s : Sync} (hs : Inv s) :
    Inv (storeHeader n h s) := by
  unfold storeHeader
  split
  case isTrue => exact hs
  case isFalse hle =>
    push_neg at hle
    refine inv_dedupCopy n h.hid ?_ hle
    refine
      { pairH := ?_, pairB := hs.pairB, subH := ?_, subB := hs.subB,
        hdrAbove := ?_, bodAbove := hs.bodAbove,
        dlHAbove := ?_, dlBAbove := hs.dlBAbove, wm := ?_, wait := hs.wait,
        impInc := hs.impInc, impLe := hs.impLe, idKeys := hs.idKeys }
    · intro e he e' he' h2
      exact hs.pairH e (List.mem_of_mem_filter he) e' (List.mem_of_mem_filter he') h2
    · intro e he
      rw [List.mem_filter, decide_eq_true_eq] at he
      rw [List.mem_filter, decide_eq_true_eq]
      exact ⟨hs.subH e he.1, he.2⟩
    · intro e he
      rw [List.mem_append] at he
      rcases he with he | he
      · exact ⟨(hs.hdrAbove e he).1, le_trans (hs.hdrAbove e he).2 (le_max_left _ _)⟩
      · rw [List.mem_singleton] at he
        subst he
        exact ⟨hle, le_max_right _ _⟩
    · intro i hi
      exact hs.dlHAbove i (List.mem_of_mem_filter hi)
    · exact le_trans hs.wm (le_max_left _ _)

theorem inv_storeHeaders (batch : List (Nat × Header)) :
    ∀ s : Sync, Inv s → Inv (batch.foldl (fun st e => storeHeader e.1 e.2 st) s) := by
  induction batch with
  | nil => intro s hs; exact hs
  | cons e t ih =>
    intro s hs
    rw [List.foldl_cons]
    exact ih _ (inv_storeHeader e.1 e.2 hs)

theorem inv_onPeerBlockHeaders (p : PeerId) (batch : List (Nat × Header)) {s : Sync}
    (hs : Inv s) : Inv (onPeerBlockHeaders p batch s) := by
  unfold onPeerBlockHeaders
  split
  case isFalse => exact inv_clearPeerDownload p hs
  case isTrue =>
    have h1 := inv_storeHeaders batch s hs
    refine
      { pairH := ?_, pairB := h1.pairB, subH := ?_, subB := h1.subB,
        hdrAbove := h1.hdrAbove, bodAbove := h1.bodAbove,
        dlHAbove := h1.dlHAbove, dlBAbove := h1.dlBAbove, wm := h1.wm, wait := h1.wait,
        impInc := h1.impInc, impLe := h1.impLe, idKeys := h1.idKeys }
    · intro e he e' he' h2
      exact h1.pairH e (List.mem_of_mem_filter he) e' (List.mem_of_mem_filter he') h2
    · intro e he
      exact h1.subH e (List.mem_of_mem_filter he)

theorem inv_storeBody (b : Body) {s : Sync} (hs : Inv s) : Inv (storeBody b s) := by
  unfold storeBody
  cases hid : idLookup b.bid s.headerIdToNumber with
  | none => exact hs
  | some t =>
    dsimp only
    split
    case isTrue => exact hs
    case isFalse =>
      refine
        { pairH := hs.pairH, pairB := ?_, subH := hs.subH, subB := ?_,
          hdrAbove := hs.hdrAbove, bodAbove := ?_,
          dlHAbove := hs.dlHAbove, dlBAbove := ?_, wm := hs.wm, wait := hs.wait,
          impInc := hs.impInc, impLe := hs.impLe, idKeys := hs.idKeys }
      · intro e he e' he' h2
        exact hs.pairB e (List.mem_of_mem_filter he) e' (List.mem_of_mem_filter he') h2
      · intro e he
        rw [List.mem_filter, decide_eq_true_eq] at he
        rw [List.mem_filter, decide_eq_true_eq]
        exact ⟨hs.subB e he.1, he.2⟩
      · intro e he
        rw [List.mem_append] at he
        rcases he with he | he
        · exact hs.bodAbove e he
        · obtain ⟨m, hm, rfl⟩ := List.mem_map.1 he
          obtain ⟨h', hh', -, -⟩ := mem_copyTargets hm
          exact (hs.hdrAbove _ hh').1
      · intro i hi
        exact hs.dlBAbove i (List.mem_of_mem_filter hi)

theorem inv_storeBodies (bs : List Body) :
    ∀ s : Sync, Inv s → Inv (bs.foldl (fun st b => storeBody b st) s) := by
  induction bs with
  | nil => intro s hs; exact hs
  | cons b t ih =>
    intro s hs
    rw [List.foldl_cons]
    exact ih _ (inv_storeBody b hs)

theorem inv_onPeerBlockBodies (p : PeerId) (bs : List Body) {s : Sync}
    (hs : Inv s) : Inv (onPeerBlockBodies p bs s) := by
  unfold onPeerBlockBodies
  split
  case isFalse => exact inv_clearPeerDownload p hs
  case isTrue =>
    have h1 := inv_storeBodies bs s hs
    refine
      { pairH := h1.pairH, pairB := ?_, subH := h1.subH, subB := ?_,
        hdrAbove := h1.hdrAbove, bodAbove := h1.bodAbove,
        dlHAbove := h1.dlHAbove, dlBAbove := ?_, wm := h1.wm, wait := h1.wait,
        impInc := h1.impInc, impLe := h1.impLe, idKeys := h1.idKeys }
    · intro e he e' he' h2
      exact h1.pairB e (List.mem_of_mem_filter he) e' (List.mem_of_mem_filter he') h2
    · intro e he
      rw [List.mem_filter, decide_eq_true_eq] at he
      rw [List.mem_filter, decide_eq_true_eq]
      refine ⟨h1.subB e he.1, fun hmem => ?_⟩
      exact he.2 (h1.pairB e he.1 (p, e.2) (mem_assignedTo.1 hmem) rfl)
    · intro i hi
      exact h1.dlBAbove i (List.mem_of_mem_filter hi)

theorem inv_collectIter {s : Sync} {h : Header} {b : Body}
    (hp : pickPair s (s.lastImportedBlock + 1) = some (h, b)) (hs : Inv s) :
    Inv { importIndex (s.lastImportedBlock + 1) s with
            lastImportedBlock := s.lastImportedBlock + 1
            imported := s.imported ++ [(s.lastImportedBlock + 1, h, b)] } := by
  unfold pickPair at hp
  have hmem := pickHeader_some hp
  refine
    { pairH := ?_, pairB := ?_, subH := ?_, subB := ?_,
      hdrAbove := ?_, bodAbove := ?_, dlHAbove := ?_, dlBAbove := ?_,
      wm := (hs.hdrAbove _ hmem.1).2, wait := hs.wait,
      impInc := ?_, impLe := ?_, idKeys := ?_ }
  · dsimp only [importIndex]
    intro e he e' he' h2
    exact hs.pairH e (List.mem_of_mem_filter he) e' (List.mem_of_mem_filter he') h2
  · dsimp only [importIndex]
    intro e he e' he' h2
    exact hs.pairB e (List.mem_of_mem_filter he) e' (List.mem_of_mem_filter he') h2
  · dsimp only [importIndex]
    intro e he
    rw [List.mem_filter, decide_eq_true_eq] at he
    rw [List.mem_filter, decide_eq_true_eq]
    exact ⟨hs.subH e he.1, he.2⟩
  · dsimp only [importIndex]
    intro e he
    rw [List.mem_filter, decide_eq_true_eq] at he
    rw [List.mem_filter, decide_eq_true_eq]
    exact ⟨hs.subB e he.1, he.2⟩
  · dsimp only [importIndex]
    intro e he
    rw [eraseKey, List.mem_filter, decide_eq_true_eq] at he
    have := hs.hdrAbove e he.1
    exact ⟨by omega, this.2⟩
  · dsimp only [importIndex]
    intro e he
    rw [eraseKey, List.mem_filter, decide_eq_true_eq] at he
    have := hs.bodAbove e he.1
    omega
  · dsimp only [importIndex]
    intro i hi
    rw [List.mem_filter, decide_eq_true_eq] at hi
    have := hs.dlHAbove i hi.1
    omega
  · dsimp only [importIndex]
    intro i hi
    rw [List.mem_filter, decide_eq_true_eq] at hi
    have := hs.dlBAbove i hi.1
    omega
  · dsimp only [importIndex]
    rw [List.map_append, List.pairwise_append]
    refine ⟨hs.impInc, List.pairwise_singleton _ _, ?_⟩
    intro x hx y hy
    rw [List.map_singleton, List.mem_singleton] at hy
    subst hy
    have := hs.impLe x hx
    omega
  · dsimp only [importIndex]
    intro m hm
    rw [List.map_append, List.mem_append] at hm
    rcases hm with hm | hm
    · exact le_trans (hs.impLe m hm) (Nat.le_succ _)
    · rw [List.map_singleton, List.mem_singleton] at hm
      omega
  · dsimp only [importIndex]
    exact List.Pairwise.sublist (List.filter_sublist _) hs.idKeys

theorem inv_collectGo (fuel : Nat) : ∀ s : Sync, Inv s → Inv (collectGo fuel s) := by
  induction fuel with
  | zero => intro s hs; exact hs
  | succ f ih =>
    intro s hs
    unfold collectGo
    cases hp : pickPair s (s.lastImportedBlock + 1) with
    | none => exact hs
    | some pr =>
      obtain ⟨h, b⟩ := pr
      exact ih _ (inv_collectIter hp hs)

theorem inv_collectBlocks {s : Sync} (hs : Inv s) : Inv (collectBlocks s) := by
  unfold collectBlocks
  split
  · exact inv_collectGo _ s hs
  · exact hs

theorem inv_abortSync {s : Sync} (hs : Inv s) : Inv (abortSync s) := by
  refine
    { pairH := ?_, pairB := ?_, subH := ?_, subB := ?_, hdrAbove := ?_, bodAbove := ?_,
      dlHAbove := ?_, dlBAbove := ?_, wm := hs.wm, wait := ?_,
      impInc := hs.impInc, impLe := hs.impLe, idKeys := ?_ } <;>
    simp [abortSync, resetSync]

theorem inv_restartSync {s : Sync} (hs : Inv s) : Inv (restartSync s) := by
  refine
    { pairH := ?_, pairB := ?_, subH := ?_, subB := ?_, hdrAbove := ?_, bodAbove := ?_,
      dlHAbove := ?_, dlBAbove := ?_, wm := hs.wm, wait := ?_,
      impInc := hs.impInc, impLe := hs.impLe, idKeys := ?_ } <;>
    simp [restartSync, resetSync]

theorem inv_completeSyncStep {s : Sync} (hs : Inv s) : Inv (completeSyncStep s) := by
  unfold completeSyncStep
  split
  case isFalse => exact hs
  case isTrue =>
    refine
      { pairH := ?_, pairB := ?_, subH := ?_, subB := ?_, hdrAbove := ?_, bodAbove := ?_,
        dlHAbove := ?_, dlBAbove := ?_, wm := hs.wm, wait := ?_,
        impInc := hs.impInc, impLe := hs.impLe, idKeys := ?_ } <;>
      simp [resetSync]

theorem inv_queueFull {s : Sync} (hs : Inv s) : Inv (queueFull s) :=
  { pairH := hs.pairH, pairB := hs.pairB, subH := hs.subH, subB := hs.subB,
    hdrAbove := hs.hdrAbove, bodAbove := hs.bodAbove,
    dlHAbove := hs.dlHAbove, dlBAbove := hs.dlBAbove, wm := hs.wm,
    wait := fun _ => rfl,
    impInc := hs.impInc, impLe := hs.impLe, idKeys := hs.idKeys }

theorem inv_continueSync {s : Sync} (hs : Inv s) : Inv (continueSync s) := by
  unfold continueSync
  split
  case isFalse => exact hs
  case isTrue =>
    refine
      { pairH := hs.pairH, pairB := hs.pairB, subH := hs.subH, subB := hs.subB,
        hdrAbove := hs.hdrAbove, bodAbove := hs.bodAbove,
        dlHAbove := hs.dlHAbove, dlBAbove := hs.dlBAbove, wm := hs.wm,
        wait := ?_,
        impInc := hs.impInc, impLe := hs.impLe, idKeys := hs.idKeys }
    intro hc
    simp at hc

theorem inv_step {s s' : Sync} (hs : Inv s) (hst : Step s s') : Inv s' := by
  cases hst with
  | reqH p l s => exact inv_requestHeaders p l hs
  | reqB p l s => exact inv_requestBodies p l hs
  | gotHeaders p batch s => exact inv_onPeerBlockHeaders p batch hs
  | gotBodies p bs s => exact inv_onPeerBlockBodies p bs hs
  | collect s => exact inv_collectBlocks hs
  | peerGone p s => exact inv_clearPeerDownload p hs
  | abort s => exact inv_abortSync hs
  | restart s => exact inv_restartSync hs
  | finish s => exact inv_completeSyncStep hs
  | noRoom s => exact inv_queueFull hs
  | roomAgain s => exact inv_continueSync hs

theorem inv_init : Inv initSync := by
  refine
    { pairH := ?_, pairB := ?_, subH := ?_, subB := ?_, hdrAbove := ?_, bodAbove := ?_,
      dlHAbove := ?_, dlBAbove := ?_, wm := ?_, wait := ?_,
      impInc := ?_, impLe := ?_, idKeys := ?_ } <;>
    simp [initSync]

theorem inv_reachable {s : Sync} (hr : Reachable s) : Inv s := by
  induction hr with
  | init => exact inv_init
  | step _ hst ih => exact inv_step ih hst

theorem findBody_restrict (n : Nat) (k : HeaderId) (b : List (Nat × Body)) :
    findBody n k b = findBody n k (b.filter (fun e => decide (e.1 = n))) := by
  induction b with
  | nil => rfl
  | cons e t ih =>
    by_cases he : e.1 = n
    · by_cases hb : e.2.bid = k
      · simp [findBody, List.filter_cons, he, hb]
      · simp [findBody, List.filter_cons, he, hb, ih]
    · have : ¬(e.1 = n ∧ e.2.bid = k) := fun hc => he hc.1
      simp [findBody, List.filter_cons, he, this, ih]

theorem pickHeader_restrictH (n : Nat) (b : List (Nat × Body)) (l : List (Nat × Header)) :
    pickHeader n b l = pickHeader n b (l.filter (fun e => decide (e.1 = n))) := by
  induction l with
  | nil => rfl
  | cons e t ih =>
    by_cases he : e.1 = n
    · cases hfb : findBody n e.2.hid b with
      | none => simp [pickHeader, List.filter_cons, he, hfb, ih]
      | some b' => simp [pickHeader, List.filter_cons, he, hfb]
    · simp [pickHeader, List.filter_cons, he, ih]

theorem pickHeader_congrB (n : Nat) {b₁ b₂ : List (Nat × Body)} (l : List (Nat × Header))
    (hcong : ∀ k : HeaderId, findBody n k b₁ = findBody n k b₂) :
    pickHeader n b₁ l = pickHeader n b₂ l := by
  induction l with
  | nil => rfl
  | cons e t ih =>
    by_cases he : e.1 = n
    · rw [pickHeader, pickHeader, if_pos he, if_pos he, ← hcong e.2.hid]
      cases findBody n e.2.hid b₁ with
      | none => exact ih
      | some b' => rfl
    · rw [pickHeader, pickHeader, if_neg he, if_neg he]
      exact ih

theorem completeAt_congr {s s' : Sync} {n : Nat}
    (hH : headersAt n s' = headersAt n s) (hB : bodiesAt n s' = bodiesAt n s) :
    completeAt s' n = completeAt s n := by
  unfold headersAt at hH
  unfold bodiesAt at hB
  unfold completeAt pickPair
  rw [pickHeader_restrictH, hH, ← pickHeader_restrictH]
  refine congrArg Option.isSome (pickHeader_congrB n s.headers ?_)
  intro k
  rw [findBody_restrict, hB, ← findBody_restrict]

theorem filterKey_eraseKey {i n : Nat} (hne : i ≠ n) (l : List (Nat × α)) :
    (eraseKey n l).filter (fun e => decide (e.1 = i)) =
      l.filter (fun e => decide (e.1 = i)) := by
  induction l with
  | nil => rfl
  | cons e t ih =>
    simp only [eraseKey] at ih
    show ((e :: t).filter (fun e => decide (e.1 ≠ n))).filter (fun e => decide (e.1 = i)) = _
    rw [List.filter_cons, List.filter_cons]
    by_cases h : e.1 = n
    · rw [if_neg (by simp [h]), if_neg (by simp [h]; omega)]
      exact ih
    · rw [if_pos (by simp [h]), List.filter_cons]
      by_cases h2 : e.1 = i
      · rw [if_pos (by simp [h2]), if_pos (by simp [h2])]
        rw [ih]
      · rw [if_neg (by simp [h2]), if_neg (by simp [h2])]
        exact ih

theorem eraseKey_length_lt (n : Nat) :
    ∀ l : List (Nat × α), (∃ e ∈ l, e.1 = n) → (eraseKey n l).length < l.length := by
  intro l
  induction l with
  | nil =>
    intro hx
    simp at hx
  | cons e t ih =>
    intro hx
    show ((e :: t).filter (fun e => decide (e.1 ≠ n))).length < _
    rw [List.filter_cons]
    by_cases he : e.1 = n
    · rw [if_neg (by simp [he])]
      have hle := List.length_filter_le (fun e : Nat × α => decide (e.1 ≠ n)) t
      simp only [List.length_cons]
      omega
    · rw [if_pos (by simp [he])]
      obtain ⟨w, hw, hwn⟩ := hx
      rw [List.mem_cons] at hw
      rcases hw with rfl | hw
      · exact absurd hwn he
      · have h2 : (eraseKey n t).length < t.length := ih ⟨w, hw, hwn⟩
        simp only [eraseKey] at h2
        simp only [List.length_cons]
        omega

theorem collectGo_shrink (fuel : Nat) : ∀ s : Sync,
    (collectGo fuel s).headers ⊆ s.headers ∧
    (collectGo fuel s).bodies ⊆ s.bodies ∧
    (collectGo fuel s).downloadingHeaders ⊆ s.downloadingHeaders ∧
    (collectGo fuel s).downloadingBodies ⊆ s.downloadingBodies ∧
    (collectGo fuel s).headerSyncPeers ⊆ s.headerSyncPeers ∧
    (collectGo fuel s).bodySyncPeers ⊆ s.bodySyncPeers := by
  induction fuel with
  | zero =>
    intro s
    exact ⟨fun _ h => h, fun _ h => h, fun _ h => h, fun _ h => h, fun _ h => h, fun _ h => h⟩
  | succ f ih =>
    intro s
    unfold collectGo
    cases hp : pickPair s (s.lastImportedBlock + 1) with
    | none =>
      exact ⟨fun _ h => h, fun _ h => h, fun _ h => h, fun _ h => h, fun _ h => h, fun _ h => h⟩
    | some pr =>
      obtain ⟨h, b⟩ := pr
      dsimp only
      obtain ⟨i1, i2, i3, i4, i5, i6⟩ :=
        ih { importIndex (s.lastImportedBlock + 1) s with
               lastImportedBlock := s.lastImportedBlock + 1
               imported := s.imported ++ [(s.lastImportedBlock + 1, h, b)] }
      refine ⟨fun a ha => ?_, fun a ha => ?_, fun a ha => ?_, fun a ha => ?_,
        fun a ha => ?_, fun a ha => ?_⟩
      · exact List.mem_of_mem_filter (i1 ha)
      · exact List.mem_of_mem_filter (i2 ha)
      · exact List.mem_of_mem_filter (i3 ha)
      · exact List.mem_of_mem_filter (i4 ha)
      · exact List.mem_of_mem_filter (i5 ha)
      · exact List.mem_of_mem_filter (i6 ha)

theorem collectGo_last_mono (fuel : Nat) :
    ∀ s : Sync, s.lastImportedBlock ≤ (collectGo fuel s).lastImportedBlock := by
  induction fuel with
  | zero => intro s; exact le_refl _
  | succ f ih =>
    intro s
    unfold collectGo
    cases hp : pickPair s (s.lastImportedBlock + 1) with
    | none => exact le_refl _
    | some pr =>
      obtain ⟨h, b⟩ := pr
      dsimp only
      refine le_trans (Nat.le_succ _) ?_
      exact ih { importIndex (s.lastImportedBlock + 1) s with
                   lastImportedBlock := s.lastImportedBlock + 1
                   imported := s.imported ++ [(s.lastImportedBlock + 1, h, b)] }

theorem collectGo_spec (fuel : Nat) :
    ∀ s : Sync, s.headers.length < fuel →
    ∃ k : Nat,
      (collectGo fuel s).lastImportedBlock = s.lastImportedBlock + k ∧
      (∀ j, 1 ≤ j → j ≤ k → completeAt s (s.lastImportedBlock + j) = true) ∧
      completeAt s (s.lastImportedBlock + k + 1) = false ∧
      (∀ i, s.lastImportedBlock < i → i ≤ s.lastImportedBlock + k →
        (∀ e ∈ (collectGo fuel s).headers, e.1 ≠ i) ∧
        (∀ e ∈ (collectGo fuel s).bodies, e.1 ≠ i) ∧
        i ∉ (collectGo fuel s).downloadingHeaders ∧
        i ∉ (collectGo fuel s).downloadingBodies ∧
        (∀ e ∈ (collectGo fuel s).headerSyncPeers, e.2 ≠ i) ∧
        (∀ e ∈ (collectGo fuel s).bodySyncPeers, e.2 ≠ i)) ∧
      (∀ i, s.lastImportedBlock + k < i →
        headersAt i (collectGo fuel s) = headersAt i s ∧
        bodiesAt i (collectGo fuel s) = bodiesAt i s) ∧
      ∃ nb : List (Nat × Header × Body),
        (collectGo fuel s).imported = s.imported ++ nb ∧
        nb.map (fun e => e.1) = List.range' (s.lastImportedBlock + 1) k ∧
        ∀ e ∈ nb, (e.1, e.2.1) ∈ s.headers ∧ (e.1, e.2.2) ∈ s.bodies ∧
          e.2.2.bid = e.2.1.hid := by
  induction fuel with
  | zero => intro s hf; omega
  | succ f ih =>
    intro s hf
    unfold collectGo
    cases hp : pickPair s (s.lastImportedBlock + 1) with
    | none =>
      refine ⟨0, rfl, by omega, ?_, by omega, fun i _ => ⟨rfl, rfl⟩, [], by simp, by simp, by simp⟩
      simp only [Nat.add_zero, completeAt, hp, Option.isSome_none]
    | some pr =>
      obtain ⟨h, b⟩ := pr
      dsimp only
      have hsrc := pickHeader_some (hp : pickHeader _ s.bodies s.headers = some (h, b))
      set s1 : Sync :=
        { importIndex (s.lastImportedBlock + 1) s with
            lastImportedBlock := s.lastImportedBlock + 1
            imported := s.imported ++ [(s.lastImportedBlock + 1, h, b)] } with hs1def
      have hs1last : s1.lastImportedBlock = s.lastImportedBlock + 1 := rfl
      have hs1hdr : s1.headers = eraseKey (s.lastImportedBlock + 1) s.headers := rfl
      have hs1bod : s1.bodies = eraseKey (s.lastImportedBlock + 1) s.bodies := rfl
      have hs1imp : s1.imported = s.imported ++ [(s.lastImportedBlock + 1, h, b)] := rfl
      have hlen : s1.headers.length < f := by
        have := eraseKey_length_lt (s.lastImportedBlock + 1) s.headers ⟨_, hsrc.1, rfl⟩
        rw [hs1hdr]
        omega
      have hAt : ∀ i, i ≠ s.lastImportedBlock + 1 →
          headersAt i s1 = headersAt i s ∧ bodiesAt i s1 = bodiesAt i s := by
        intro i hi
        constructor
        · show (s1.headers.filter _) = (s.headers.filter _)
          rw [hs1hdr]
          exact filterKey_eraseKey hi _
        · show (s1.bodies.filter _) = (s.bodies.filter _)
          rw [hs1bod]
          exact filterKey_eraseKey hi _
      obtain ⟨k1, hlast, hcomp, hgap, herase, hunch, nb1, himp, hmap, hnb⟩ := ih s1 hlen
      rw [hs1last] at hlast hgap herase hunch
      refine ⟨k1 + 1, by omega, ?_, ?_, ?_, ?_, (s.lastImportedBlock + 1, h, b) :: nb1,
        ?_, ?_, ?_⟩
      · intro j h1 hk
        by_cases hj : j = 1
        · subst hj
          simp only [completeAt, hp, Option.isSome_some]
        · have hcj := hcomp (j - 1) (by omega) (by omega)
          have hidx : s.lastImportedBlock + 1 + (j - 1) = s.lastImportedBlock + j := by omega
          rw [hs1last, hidx] at hcj
          rw [← completeAt_congr (hAt (s.lastImportedBlock + j) (by omega)).1
            (hAt (s.lastImportedBlock + j) (by omega)).2]
          exact hcj
      · have hidx : s.lastImportedBlock + 1 + k1 + 1 = s.lastImportedBlock + (k1 + 1) + 1 := by
          omega
        rw [hidx] at hgap
        rw [← completeAt_congr (hAt (s.lastImportedBlock + (k1 + 1) + 1) (by omega)).1
          (hAt (s.lastImportedBlock + (k1 + 1) + 1) (by omega)).2]
        exact hgap
      · intro i hi1 hi2
        by_cases hi : i = s.lastImportedBlock + 1
        · subst hi
          obtain ⟨c1, c2, c3, c4, c5, c6⟩ := collectGo_shrink f s1
          refine ⟨fun e he => ?_, fun e he => ?_, fun hc => ?_, fun hc => ?_,
            fun e he => ?_, fun e he => ?_⟩
          · have := c1 he
            rw [hs1hdr, eraseKey, List.mem_filter, decide_eq_true_eq] at this
            exact this.2
          · have := c2 he
            rw [hs1bod, eraseKey, List.mem_filter, decide_eq_true_eq] at this
            exact this.2
          · have := c3 hc
            have h4 : s1.downloadingHeaders =
                s.downloadingHeaders.filter
                  (fun i => decide (i ≠ s.lastImportedBlock + 1)) := rfl
            rw [h4, List.mem_filter, decide_eq_true_eq] at this
            exact this.2 rfl
          · have := c4 hc
            have h4 : s1.downloadingBodies =
                s.downloadingBodies.filter
                  (fun i => decide (i ≠ s.lastImportedBlock + 1)) := rfl
            rw [h4, List.mem_filter, decide_eq_true_eq] at this
            exact this.2 rfl
          · have := c5 he
            have h4 : s1.headerSyncPeers =
                s.headerSyncPeers.filter
                  (fun e => decide (e.2 ≠ s.lastImportedBlock + 1)) := rfl
            rw [h4, List.mem_filter, decide_eq_true_eq] at this
            exact this.2
          · have := c6 he
            have h4 : s1.bodySyncPeers =
                s.bodySyncPeers.filter
                  (fun e => decide (e.2 ≠ s.lastImportedBlock + 1)) := rfl
            rw [h4, List.mem_filter, decide_eq_true_eq] at this
            exact this.2
        · exact herase i (by omega) (by omega)
      · intro i hi
        have h1 := hunch i (by omega)
        have h2 := hAt i (by omega)
        exact ⟨h1.1.trans h2.1, h1.2.trans h2.2⟩
      · rw [himp, hs1imp]
        simp
      · rw [List.map_cons, hmap, hs1last]
        rfl
      · intro e he
        rw [List.mem_cons] at he
        rcases he with rfl | he
        · exact ⟨hsrc.1, hsrc.2.1, hsrc.2.2⟩
        · obtain ⟨n1, n2, n3⟩ := hnb e he
          rw [hs1hdr, eraseKey, List.mem_filter] at n1
          rw [hs1bod, eraseKey, List.mem_filter] at n2
          exact ⟨n1.1, n2.1, n3⟩

theorem dedupCopy_frame (n : Nat) (k : HeaderId) (s : Sync) :
    (dedupCopy n k s).lastImportedBlock = s.lastImportedBlock ∧
    (dedupCopy n k s).imported = s.imported := by
  unfold dedupCopy
  cases idLookup k s.headerIdToNumber with
  | none => exact ⟨rfl, rfl⟩
  | some t =>
    dsimp only
    cases findBody t k s.bodies with
    | none => exact ⟨rfl, rfl⟩
    | some b =>
      dsimp only
      split <;> exact ⟨rfl, rfl⟩

theorem storeHeader_frame (n : Nat) (h : Header) (s : Sync) :
    (storeHeader n h s).lastImportedBlock = s.lastImportedBlock ∧
    (storeHeader n h s).imported = s.imported := by
  unfold storeHeader
  split
  · exact ⟨rfl, rfl⟩
  · exact dedupCopy_frame n h.hid _

theorem storeHeaders_frame (batch : List (Nat × Header)) :
    ∀ s : Sync,
      (batch.foldl (fun st e => storeHeader e.1 e.2 st) s).lastImportedBlock =
        s.lastImportedBlock ∧
      (batch.foldl (fun st e => storeHeader e.1 e.2 st) s).imported = s.imported := by
  induction batch with
  | nil => intro s; exact ⟨rfl, rfl⟩
  | cons e t ih =>
    intro s
    rw [List.foldl_cons]
    obtain ⟨h1, h2⟩ := ih (storeHeader e.1 e.2 s)
    obtain ⟨g1, g2⟩ := storeHeader_frame e.1 e.2 s
    exact ⟨h1.trans g1, h2.trans g2⟩

theorem onPeerBlockHeaders_frame (p : PeerId) (batch : List (Nat × Header)) (s : Sync) :
    (onPeerBlockHeaders p batch s).lastImportedBlock = s.lastImportedBlock ∧
    (onPeerBlockHeaders p batch s).imported = s.imported := by
  unfold onPeerBlockHeaders
  split
  · exact storeHeaders_frame batch s
  · exact ⟨rfl, rfl⟩

theorem storeBody_frame (b : Body) (s : Sync) :
    (storeBody b s).lastImportedBlock = s.lastImportedBlock ∧
    (storeBody b s).imported = s.imported := by
  unfold storeBody
  cases idLookup b.bid s.headerIdToNumber with
  | none => exact ⟨rfl, rfl⟩
  | some t =>
    dsimp only
    split <;> exact ⟨rfl, rfl⟩

theorem storeBodies_frame (bs : List Body) :
    ∀ s : Sync,
      (bs.foldl (fun st b => storeBody b st) s).lastImportedBlock = s.lastImportedBlock ∧
      (bs.foldl (fun st b => storeBody b st) s).imported = s.imported := by
  induction bs with
  | nil => intro s; exact ⟨rfl, rfl⟩
  | cons b t ih =>
    intro s
    rw [List.foldl_cons]
    obtain ⟨h1, h2⟩ := ih (storeBody b s)
    obtain ⟨g1, g2⟩ := storeBody_frame b s
    exact ⟨h1.trans g1, h2.trans g2⟩

theorem onPeerBlockBodies_frame (p : PeerId) (bs : List Body) (s : Sync) :
    (onPeerBlockBodies p bs s).lastImportedBlock = s.lastImportedBlock ∧
    (onPeerBlockBodies p bs s).imported = s.imported := by
  unfold onPeerBlockBodies
  split
  · exact storeBodies_frame bs s
  · exact ⟨rfl, rfl⟩

theorem requestHeaders_frame (p : PeerId) (l : List Nat) (s : Sync) :
    (requestHeaders p l s).lastImportedBlock = s.lastImportedBlock ∧
    (requestHeaders p l s).imported = s.imported := by
  unfold requestHeaders
  split <;> exact ⟨rfl, rfl⟩

theorem requestBodies_frame (p : PeerId) (l : List Nat) (s : Sync) :
    (requestBodies p l s).lastImportedBlock = s.lastImportedBlock ∧
    (requestBodies p l s).imported = s.imported := by
  unfold requestBodies
  split <;> exact ⟨rfl, rfl⟩

theorem completeSyncStep_frame (s : Sync) :
    (completeSyncStep s).lastImportedBlock = s.lastImportedBlock ∧
    (completeSyncStep s).imported = s.imported := by
  unfold completeSyncStep
  split <;> exact ⟨rfl, rfl⟩

theorem continueSync_frame (s : Sync) :
    (continueSync s).lastImportedBlock = s.lastImportedBlock ∧
    (continueSync s).imported = s.imported := by
  unfold continueSync
  split <;> exact ⟨rfl, rfl⟩

theorem collectBlocks_last_mono (s : Sync) :
    s.lastImportedBlock ≤ (collectBlocks s).lastImportedBlock := by
  unfold collectBlocks
  split
  · exact collectGo_last_mono _ s
  · exact le_refl _

theorem findBody_eq_none {t : Nat} {k : HeaderId} {l : List (Nat × Body)}
    (hn : findBody t k l = none) : ∀ e ∈ l, ¬(e.1 = t ∧ e.2.bid = k) := by
  induction l with
  | nil => intro e he; simp at he
  | cons e rest ih =>
    intro e' he'
    by_cases hc : e.1 = t ∧ e.2.bid = k
    · rw [findBody, if_pos hc] at hn
      cases hn
    · rw [findBody, if_neg hc] at hn
      rw [List.mem_cons] at he'
      rcases he' with rfl | he'
      · exact hc
      · exact ih hn e' he'

theorem pickHeader_eq_none {n : Nat} {b : List (Nat × Body)} {l : List (Nat × Header)}
    (hn : pickHeader n b l = none) :
    ∀ e ∈ l, e.1 = n → findBody n e.2.hid b = none := by
  induction l with
  | nil => intro e he; simp at he
  | cons e t ih =>
    intro e' he' hn'
    by_cases hc : e.1 = n
    · rw [pickHeader, if_pos hc] at hn
      cases hfb : findBody n e.2.hid b with
      | some bb => rw [hfb] at hn; cases hn
      | none =>
        rw [hfb] at hn
        rw [List.mem_cons] at he'
        rcases he' with rfl | he'
        · exact hfb
        · exact ih hn e' he' hn'
    · rw [pickHeader, if_neg hc] at hn
      rw [List.mem_cons] at he'
      rcases he' with rfl | he'
      · exact absurd hn' hc
      · exact ih hn e' he' hn'

theorem completeAt_of_pair {s : Sync} {n : Nat} (h : Header) (bb : Body)
    (hh : (n, h) ∈ s.headers) (hb : (n, bb) ∈ s.bodies) (hk : bb.bid = h.hid) :
    completeAt s n = true := by
  unfold completeAt pickPair
  cases hp : pickHeader n s.bodies s.headers with
  | some pr => rfl
  | none =>
    exfalso
    have := pickHeader_eq_none hp (n, h) hh rfl
    exact findBody_eq_none this (n, bb) hb ⟨rfl, hk⟩

theorem assignedTo_cons (p : PeerId) (e : PeerId × Nat) (t : List (PeerId × Nat)) :
    assignedTo p (e :: t) =
      if e.1 = p then e.2 :: assignedTo p t else assignedTo p t := by
  unfold assignedTo
  rw [List.filter_cons]
  by_cases he : e.1 = p
  · rw [if_pos (by simp [he]), if_pos he, List.map_cons]
  · rw [if_neg (by simp [he]), if_neg he]

theorem assignedTo_clear_self (p : PeerId) (l : List (PeerId × Nat)) :
    assignedTo p (l.filter (fun e => decide (e.1 ≠ p))) = [] := by
  induction l with
  | nil => rfl
  | cons e t ih =>
    rw [List.filter_cons]
    by_cases he : e.1 = p
    · rw [if_neg (by simp [he])]
      exact ih
    · rw [if_pos (by simp [he]), assignedTo_cons, if_neg he]
      exact ih

theorem assignedTo_clear_other {p q : PeerId} (hq : q ≠ p) (l : List (PeerId × Nat)) :
    assignedTo q (l.filter (fun e => decide (e.1 ≠ p))) = assignedTo q l := by
  induction l with
  | nil => rfl
  | cons e t ih =>
    rw [List.filter_cons]
    by_cases he : e.1 = p
    · rw [if_neg (by simp [he]), ih, assignedTo_cons,
        if_neg (by rw [he]; exact fun hc => hq hc.symm)]
    · rw [if_pos (by simp [he]), assignedTo_cons, assignedTo_cons, ih]

/-- Reachable demo state: peer 0 is assigned header indices 1 and 2, peer 1 is
assigned header indices 3 and 4. -/
def demoTwoPeers : Sync :=
  requestHeaders 1 [3, 4] (requestHeaders 0 [1, 2] initSync)

theorem demoTwoPeers_reachable : Reachable demoTwoPeers :=
  Reachable.step (Reachable.step Reachable.init (Step.reqH 0 [1, 2] initSync))
    (Step.reqH 1 [3, 4] (requestHeaders 0 [1, 2] initSync))

/-- C1: in every reachable engine state, the sets of chain indices assigned to
two distinct peers (recorded in `m_headerSyncPeers`/`m_bodySyncPeers`) are
disjoint — no missing index is simultaneously assigned to two peers — in the
header phase and in the body phase alike, and every assigned index is
mirrored in `m_downloadingHeaders`/`m_downloadingBodies`. -/
theorem c1_assignment_disjoint (s : Sync) (hr : Reachable s) :
    (∀ p q i, p ≠ q → i ∈ assignedTo p s.headerSyncPeers →
      i ∈ assignedTo q s.headerSyncPeers → False) ∧
    (∀ p q i, p ≠ q → i ∈ assignedTo p s.bodySyncPeers →
      i ∈ assignedTo q s.bodySyncPeers → False) ∧
    (∀ p i, i ∈ assignedTo p s.headerSyncPeers → i ∈ s.downloadingHeaders) ∧
    (∀ p i, i ∈ assignedTo p s.bodySyncPeers → i ∈ s.downloadingBodies) := by
  have hs := inv_reachable hr
  refine ⟨?_, ?_, ?_, ?_⟩
  · intro p q i hpq hp hq
    exact hpq (hs.pairH (p, i) (mem_assignedTo.1 hp) (q, i) (mem_assignedTo.1 hq) rfl)
  · intro p q i hpq hp hq
    exact hpq (hs.pairB (p, i) (mem_assignedTo.1 hp) (q, i) (mem_assignedTo.1 hq) rfl)
  · intro p i hp
    exact hs.subH (p, i) (mem_assignedTo.1 hp)
  · intro p i hp
    exact hs.subB (p, i) (mem_assignedTo.1 hp)

theorem c1_assignment_disjoint_witness :
    3 ∈ demoTwoPeers.downloadingHeaders ∧
    ¬ 1 ∈ assignedTo 1 demoTwoPeers.headerSyncPeers :=
  ⟨(c1_assignment_disjoint demoTwoPeers demoTwoPeers_reachable).2.2.1 1 3 (by decide),
   fun hc => (c1_assignment_disjoint demoTwoPeers demoTwoPeers_reachable).1 0 1 1
     (by decide) (by decide) hc⟩

/-- C2: across every engine operation the last-imported watermark is
monotonically non-decreasing and never exceeds the highest-seen watermark
(`m_highestBlock`), in the source state and in the successor state; moreover
it is advanced only by the block assembler — every operation other than
`collectBlocks` leaves `m_lastImportedBlock` unchanged. -/
theorem c2_watermark_monotone {s s' : Sync} (hr : Reachable s) (hst : Step s s') :
    (s.lastImportedBlock ≤ s'.lastImportedBlock ∧
     s.lastImportedBlock ≤ s.highestBlock ∧
     s'.lastImportedBlock ≤ s'.highestBlock) ∧
    (∀ p l, (requestHeaders p l s).lastImportedBlock = s.lastImportedBlock) ∧
    (∀ p l, (requestBodies p l s).lastImportedBlock = s.lastImportedBlock) ∧
    (∀ p batch, (onPeerBlockHeaders p batch s).lastImportedBlock = s.lastImportedBlock) ∧
    (∀ p bs, (onPeerBlockBodies p bs s).lastImportedBlock = s.lastImportedBlock) ∧
    (∀ p, (clearPeerDownload p s).lastImportedBlock = s.lastImportedBlock) ∧
    (abortSync s).lastImportedBlock = s.lastImportedBlock ∧
    (restartSync s).lastImportedBlock = s.lastImportedBlock ∧
    (completeSyncStep s).lastImportedBlock = s.lastImportedBlock ∧
    (queueFull s).lastImportedBlock = s.lastImportedBlock ∧
    (continueSync s).lastImportedBlock = s.lastImportedBlock := by
  have hs := inv_reachable hr
  have hs' := inv_step hs hst
  refine ⟨⟨?_, hs.wm, hs'.wm⟩,
    fun p l => (requestHeaders_frame p l s).1,
    fun p l => (requestBodies_frame p l s).1,
    fun p batch => (onPeerBlockHeaders_frame p batch s).1,
    fun p bs => (onPeerBlockBodies_frame p bs s).1,
    fun p => rfl, rfl, rfl, (completeSyncStep_frame s).1, rfl, (continueSync_frame s).1⟩
  cases hst with
  | reqH p l s => exact le_of_eq (requestHeaders_frame p l s).1.symm
  | reqB p l s => exact le_of_eq (requestBodies_frame p l s).1.symm
  | gotHeaders p batch s => exact le_of_eq (onPeerBlockHeaders_frame p batch s).1.symm
  | gotBodies p bs s => exact le_of_eq (onPeerBlockBodies_frame p bs s).1.symm
  | collect s => exact collectBlocks_last_mono s
  | peerGone p s => exact le_refl _
  | abort s => exact le_refl _
  | restart s => exact le_refl _
  | finish s => exact le_of_eq (completeSyncStep_frame s).1.symm
  | noRoom s => exact le_refl _
  | roomAgain s => exact le_of_eq (continueSync_frame s).1.symm

theorem c2_watermark_monotone_witness :
    initSync.lastImportedBlock ≤ (abortSync initSync).lastImportedBlock ∧
    (queueFull initSync).lastImportedBlock = initSync.lastImportedBlock :=
  ⟨(c2_watermark_monotone Reachable.init (Step.abort initSync)).1.1,
   (c2_watermark_monotone Reachable.init (Step.abort initSync)).2.2.2.2.2.2.2.2.2.1⟩

/-- C7: `abortSync` from any state cancels all peer assignments, clears every
per-round table (headers, bodies, downloading sets, peer assignment maps,
content-identity index), leaves the engine in `Idle`, and is idempotent —
a second call leaves the state unchanged. -/
theorem c7_abortSync_clears (s : Sync) :
    (abortSync s).state = SyncState.Idle ∧
    (abortSync s).headerSyncPeers = [] ∧ (abortSync s).bodySyncPeers = [] ∧
    (abortSync s).downloadingHeaders = [] ∧ (abortSync s).downloadingBodies = [] ∧
    (abortSync s).headers = [] ∧ (abortSync s).bodies = [] ∧
    (abortSync s).headerIdToNumber = [] ∧
    abortSync (abortSync s) = abortSync s :=
  ⟨rfl, rfl, rfl, rfl, rfl, rfl, rfl, rfl, rfl⟩

theorem c7_abortSync_clears_witness :
    (abortSync demoTwoPeers).state = SyncState.Idle ∧
    (abortSync demoTwoPeers).headerSyncPeers = [] ∧
    abortSync (abortSync demoTwoPeers) = abortSync demoTwoPeers :=
  ⟨(c7_abortSync_clears demoTwoPeers).1, (c7_abortSync_clears demoTwoPeers).2.1,
   (c7_abortSync_clears demoTwoPeers).2.2.2.2.2.2.2.2⟩

/-- C9: a freshly constructed engine starts in the `NotSynced` state (not
`Idle`), with `isSyncing` false, zero watermarks, no chosen chain peer, and
every per-round table empty. -/
theorem c9_initial_state :
    initSync.state = SyncState.NotSynced ∧ initSync.state ≠ SyncState.Idle ∧
    isSyncing initSync = false ∧
    initSync.startingBlock = 0 ∧ initSync.highestBlock = 0 ∧
    initSync.lastImportedBlock = 0 ∧ initSync.chainPeer = none ∧
    initSync.downloadingHeaders = [] ∧ initSync.downloadingBodies = [] ∧
    initSync.headers = [] ∧ initSync.bodies = [] ∧
    initSync.headerSyncPeers = [] ∧ initSync.bodySyncPeers = [] ∧
    initSync.headerIdToNumber = [] :=
  ⟨rfl, by decide, rfl, rfl, rfl, rfl, rfl, rfl, rfl, rfl, rfl, rfl, rfl, rfl⟩

theorem headerIdEqSrc_iff {a b : HeaderId} : headerIdEqSrc a b = true ↔ a = b := by
  cases a
  cases b
  simp [headerIdEqSrc, HeaderId.mk.injEq]

/-- C10: `HeaderId` equality (the source `operator==`) is an equivalence
relation and holds exactly when both `transactionsRoot` and `uncles` agree;
`HeaderIdHash` is consistent with it for every deterministic field hasher
(equal ids hash equally); and in every reachable state the content-identity
map `m_headerIdToNumber` holds at most one live entry per identity. -/
theorem c10_headerid_hash_consistent :
    (∀ a : HeaderId, headerIdEqSrc a a = true) ∧
    (∀ a b : HeaderId, headerIdEqSrc a b = true → headerIdEqSrc b a = true) ∧
    (∀ a b c : HeaderId, headerIdEqSrc a b = true → headerIdEqSrc b c = true →
      headerIdEqSrc a c = true) ∧
    (∀ a b : HeaderId, headerIdEqSrc a b = true ↔
      (a.transactionsRoot = b.transactionsRoot ∧ a.uncles = b.uncles)) ∧
    (∀ (f : H256 → Nat) (a b : HeaderId), headerIdEqSrc a b = true →
      headerIdHash f a = headerIdHash f b) ∧
    (∀ s : Sync, Reachable s →
      List.Pairwise (fun e e' => headerIdEqSrc e.1 e'.1 = false) s.headerIdToNumber) := by
  refine ⟨?_, ?_, ?_, ?_, ?_, ?_⟩
  · intro a
    exact headerIdEqSrc_iff.2 rfl
  · intro a b h
    exact headerIdEqSrc_iff.2 (headerIdEqSrc_iff.1 h).symm
  · intro a b c h1 h2
    exact headerIdEqSrc_iff.2 ((headerIdEqSrc_iff.1 h1).trans (headerIdEqSrc_iff.1 h2))
  · intro a b
    rw [headerIdEqSrc_iff]
    constructor
    · rintro rfl
      exact ⟨rfl, rfl⟩
    · intro hc
      cases a
      cases b
      simp_all
  · intro f a b h
    rw [headerIdEqSrc_iff.1 h]
  · intro s hr
    exact ((inv_reachable hr).idKeys).imp
      (fun hne => Bool.eq_false_iff.2 (fun hc => hne (headerIdEqSrc_iff.1 hc)))

theorem c10_headerid_hash_consistent_witness :
    headerIdHash (fun v => v + 7) ⟨3, 4⟩ = headerIdHash (fun v => v + 7) ⟨3, 4⟩ ∧
    List.Pairwise (fun e e' => headerIdEqSrc e.1 e'.1 = false) initSync.headerIdToNumber :=
  ⟨c10_headerid_hash_consistent.2.2.2.2.1 (fun v => v + 7) ⟨3, 4⟩ ⟨3, 4⟩ (by decide),
   c10_headerid_hash_consistent.2.2.2.2.2 initSync Reachable.init⟩

/-- C4: in every reachable state an imported index (at or below the
last-imported watermark) is absent from every download and storage table
(`m_headers`, `m_bodies`, `m_downloadingHeaders`, `m_downloadingBodies` and
both peer assignment maps); a request naming an imported index is refused
wholesale; a resent header for an imported index is skipped by the storage
step; and the import-queue log never contains an index twice. -/
theorem c4_no_reimport (s : Sync) (hr : Reachable s) :
    (∀ n, n ≤ s.lastImportedBlock →
      (∀ e ∈ s.headers, e.1 ≠ n) ∧ (∀ e ∈ s.bodies, e.1 ≠ n) ∧
      n ∉ s.downloadingHeaders ∧ n ∉ s.downloadingBodies ∧
      (∀ e ∈ s.headerSyncPeers, e.2 ≠ n) ∧ (∀ e ∈ s.bodySyncPeers, e.2 ≠ n)) ∧
    (∀ p l n, n ∈ l → n ≤ s.lastImportedBlock →
      requestHeaders p l s = s ∧ requestBodies p l s = s) ∧
    (∀ n h, n ≤ s.lastImportedBlock → storeHeader n h s = s) ∧
    (s.imported.map (fun e => e.1)).Nodup := by
  have hs := inv_reachable hr
  refine ⟨?_, ?_, ?_, ?_⟩
  · intro n hn
    refine ⟨fun e he hc => ?_, fun e he hc => ?_, fun hc => ?_, fun hc => ?_,
      fun e he hc => ?_, fun e he hc => ?_⟩
    · have := (hs.hdrAbove e he).1
      omega
    · have := hs.bodAbove e he
      omega
    · have := hs.dlHAbove n hc
      omega
    · have := hs.dlBAbove n hc
      omega
    · have := hs.dlHAbove e.2 (hs.subH e he)
      omega
    · have := hs.dlBAbove e.2 (hs.subB e he)
      omega
  · intro p l n hnl hn
    constructor
    · unfold requestHeaders
      rw [if_neg]
      rintro ⟨-, hall⟩
      have := (hall n hnl).1
      omega
    · unfold requestBodies
      rw [if_neg]
      rintro ⟨-, hall⟩
      have := (hall n hnl).1
      omega
  · intro n h hn
    unfold storeHeader
    rw [if_pos hn]
  · exact hs.impInc.imp (fun hlt => Nat.ne_of_lt hlt)

theorem c4_no_reimport_witness :
    requestHeaders 0 [0] initSync = initSync ∧ requestBodies 0 [0] initSync = initSync :=
  (c4_no_reimport initSync Reachable.init).2.1 0 [0] 0 (by decide) (by decide)

/-- C5: with room in the import queue, `collectBlocks` advances the
last-imported watermark contiguously by some `k`: every scanned index in
`last+1 … last+k` had a complete header/body pair, the scan stops at the
first gap (`last+k+1` lacks a complete pair), every imported index is removed
from all tables, every later index is untouched, and exactly the blocks
assembled from stored header/body pairs are forwarded to the import queue in
ascending index order. -/
theorem c5_collectBlocks_contiguous (s : Sync) (hroom : s.bqRoom = true) :
    ∃ k : Nat,
      (collectBlocks s).lastImportedBlock = s.lastImportedBlock + k ∧
      (∀ j, 1 ≤ j → j ≤ k → completeAt s (s.lastImportedBlock + j) = true) ∧
      completeAt s (s.lastImportedBlock + k + 1) = false ∧
      (∀ i, s.lastImportedBlock < i → i ≤ s.lastImportedBlock + k →
        (∀ e ∈ (collectBlocks s).headers, e.1 ≠ i) ∧
        (∀ e ∈ (collectBlocks s).bodies, e.1 ≠ i) ∧
        i ∉ (collectBlocks s).downloadingHeaders ∧
        i ∉ (collectBlocks s).downloadingBodies ∧
        (∀ e ∈ (collectBlocks s).headerSyncPeers, e.2 ≠ i) ∧
        (∀ e ∈ (collectBlocks s).bodySyncPeers, e.2 ≠ i)) ∧
      (∀ i, s.lastImportedBlock + k < i →
        headersAt i (collectBlocks s) = headersAt i s ∧
        bodiesAt i (collectBlocks s) = bodiesAt i s) ∧
      ∃ nb : List (Nat × Header × Body),
        (collectBlocks s).imported = s.imported ++ nb ∧
        nb.map (fun e => e.1) = List.range' (s.lastImportedBlock + 1) k ∧
        ∀ e ∈ nb, (e.1, e.2.1) ∈ s.headers ∧ (e.1, e.2.2) ∈ s.bodies ∧
          e.2.2.bid = e.2.1.hid := by
  have hc : collectBlocks s = collectGo (s.headers.length + 1) s := by
    unfold collectBlocks
    rw [if_pos hroom]
  rw [hc]
  exact collectGo_spec _ s (Nat.lt_succ_self _)

/-- Demo header and body values for the concrete scenarios. -/
def demoH1 : Header := ⟨[], 21, 5, 6⟩

def demoH2 : Header := ⟨[], 22, 5, 6⟩

def demoH3 : Header := ⟨[], 23, 7, 8⟩

def demoB1 : Body := ⟨[], 5, 6⟩

def demoB3 : Body := ⟨[], 7, 8⟩

/-- Demo state for the assembler: complete pairs stored at indices 1 and 2. -/
def demoCollect : Sync :=
  { initSync with
      headers := [(1, demoH1), (2, demoH3)]
      bodies := [(1, demoB1), (2, demoB3)] }

theorem c5_collectBlocks_contiguous_witness :
    ∃ k : Nat,
      (collectBlocks demoCollect).lastImportedBlock = demoCollect.lastImportedBlock + k ∧
      (∀ j, 1 ≤ j → j ≤ k → completeAt demoCollect (demoCollect.lastImportedBlock + j) = true) ∧
      completeAt demoCollect (demoCollect.lastImportedBlock + k + 1) = false ∧
      (∀ i, demoCollect.lastImportedBlock < i → i ≤ demoCollect.lastImportedBlock + k →
        (∀ e ∈ (collectBlocks demoCollect).headers, e.1 ≠ i) ∧
        (∀ e ∈ (collectBlocks demoCollect).bodies, e.1 ≠ i) ∧
        i ∉ (collectBlocks demoCollect).downloadingHeaders ∧
        i ∉ (collectBlocks demoCollect).downloadingBodies ∧
        (∀ e ∈ (collectBlocks demoCollect).headerSyncPeers, e.2 ≠ i) ∧
        (∀ e ∈ (collectBlocks demoCollect).bodySyncPeers, e.2 ≠ i)) ∧
      (∀ i, demoCollect.lastImportedBlock + k < i →
        headersAt i (collectBlocks demoCollect) = headersAt i demoCollect ∧
        bodiesAt i (collectBlocks demoCollect) = bodiesAt i demoCollect) ∧
      ∃ nb : List (Nat × Header × Body),
        (collectBlocks demoCollect).imported = demoCollect.imported ++ nb ∧
        nb.map (fun e => e.1) = List.range' (demoCollect.lastImportedBlock + 1) k ∧
        ∀ e ∈ nb, (e.1, e.2.1) ∈ demoCollect.headers ∧ (e.1, e.2.2) ∈ demoCollect.bodies ∧
          e.2.2.bid = e.2.1.hid :=
  c5_collectBlocks_contiguous demoCollect rfl

/-- C6: when the import queue signals no room, the engine enters `Waiting`
via `pauseSync` with the room flag cleared; while `Waiting`, no engine
operation other than `continueSync` pushes any block to the import queue; and
`continueSync`, fired by the room-available signal, re-enters the downloading
state with the room flag restored while preserving every table and watermark,
so sync resumes exactly where it paused. -/
theorem c6_backpressure (s : Sync) (hr : Reachable s) :
    ((queueFull s).state = SyncState.Waiting ∧
     queueFull s = pauseSync { s with bqRoom := false } ∧
     (queueFull s).bqRoom = false) ∧
    (s.state = SyncState.Waiting →
      (collectBlocks s).imported = s.imported ∧
      (∀ p l, (requestHeaders p l s).imported = s.imported) ∧
      (∀ p l, (requestBodies p l s).imported = s.imported) ∧
      (∀ p batch, (onPeerBlockHeaders p batch s).imported = s.imported) ∧
      (∀ p bs, (onPeerBlockBodies p bs s).imported = s.imported) ∧
      (∀ p, (clearPeerDownload p s).imported = s.imported) ∧
      (abortSync s).imported = s.imported ∧
      (restartSync s).imported = s.imported ∧
      (completeSyncStep s).imported = s.imported ∧
      (queueFull s).imported = s.imported) ∧
    (s.state = SyncState.Waiting →
      (continueSync s).state = SyncState.DownloadingHeaders ∧
      (continueSync s).bqRoom = true ∧
      (continueSync s).headers = s.headers ∧ (continueSync s).bodies = s.bodies ∧
      (continueSync s).downloadingHeaders = s.downloadingHeaders ∧
      (continueSync s).downloadingBodies = s.downloadingBodies ∧
      (continueSync s).headerSyncPeers = s.headerSyncPeers ∧
      (continueSync s).bodySyncPeers = s.bodySyncPeers ∧
      (continueSync s).headerIdToNumber = s.headerIdToNumber ∧
      (continueSync s).lastImportedBlock = s.lastImportedBlock ∧
      (continueSync s).highestBlock = s.highestBlock ∧
      (continueSync s).imported = s.imported) := by
  have hs := inv_reachable hr
  refine ⟨⟨rfl, rfl, rfl⟩, ?_, ?_⟩
  · intro hw
    have hbq : s.bqRoom = false := hs.wait hw
    refine ⟨?_, fun p l => (requestHeaders_frame p l s).2,
      fun p l => (requestBodies_frame p l s).2,
      fun p batch => (onPeerBlockHeaders_frame p batch s).2,
      fun p bs => (onPeerBlockBodies_frame p bs s).2,
      fun p => rfl, rfl, rfl, (completeSyncStep_frame s).2, rfl⟩
    simp [collectBlocks, hbq]
  · intro hw
    have hc : continueSync s =
        { s with state := SyncState.DownloadingHeaders, bqRoom := true } := by
      unfold continueSync
      rw [if_pos hw]
    rw [hc]
    exact ⟨rfl, rfl, rfl, rfl, rfl, rfl, rfl, rfl, rfl, rfl, rfl, rfl⟩

theorem c6_backpressure_witness :
    (queueFull initSync).state = SyncState.Waiting ∧
    (collectBlocks (queueFull initSync)).imported = (queueFull initSync).imported ∧
    (continueSync (queueFull initSync)).bqRoom = true :=
  ⟨(c6_backpressure initSync Reachable.init).1.1,
   ((c6_backpressure (queueFull initSync)
       (Reachable.step Reachable.init (Step.noRoom initSync))).2.1 rfl).1,
   ((c6_backpressure (queueFull initSync)
       (Reachable.step Reachable.init (Step.noRoom initSync))).2.2 rfl).2.1⟩

/-- Reachable demo state: peer 0 holds the outstanding header assignment
[1, 2]. -/
def demoAssigned : Sync := requestHeaders 0 [1, 2] initSync

theorem demoAssigned_reachable : Reachable demoAssigned :=
  Reachable.step Reachable.init (Step.reqH 0 [1, 2] initSync)

/-- C8: a header batch that does not match the peer's outstanding assignment
(unsolicited, wrong indices, or out of the requested order) is discarded
wholesale: the handler reduces to `clearPeerDownload`, stores none of the
batch's headers, changes no storage table, clears the offending peer's
assignment, and leaves other peers' assignments and their downloading indices
untouched. -/
theorem c8_mismatched_batch_rejected (s : Sync) (p : PeerId)
    (batch : List (Nat × Header)) (hr : Reachable s)
    (hmis : ¬(batch ≠ [] ∧ batch.map (fun e => e.1) = assignedTo p s.headerSyncPeers)) :
    onPeerBlockHeaders p batch s = clearPeerDownload p s ∧
    (onPeerBlockHeaders p batch s).headers = s.headers ∧
    (onPeerBlockHeaders p batch s).bodies = s.bodies ∧
    (onPeerBlockHeaders p batch s).headerIdToNumber = s.headerIdToNumber ∧
    (onPeerBlockHeaders p batch s).imported = s.imported ∧
    (onPeerBlockHeaders p batch s).lastImportedBlock = s.lastImportedBlock ∧
    assignedTo p (onPeerBlockHeaders p batch s).headerSyncPeers = [] ∧
    assignedTo p (onPeerBlockHeaders p batch s).bodySyncPeers = [] ∧
    (∀ q, q ≠ p →
      assignedTo q (onPeerBlockHeaders p batch s).headerSyncPeers =
        assignedTo q s.headerSyncPeers ∧
      assignedTo q (onPeerBlockHeaders p batch s).bodySyncPeers =
        assignedTo q s.bodySyncPeers) ∧
    (∀ q i, q ≠ p → i ∈ assignedTo q s.headerSyncPeers →
      i ∈ (onPeerBlockHeaders p batch s).downloadingHeaders) ∧
    (∀ q i, q ≠ p → i ∈ assignedTo q s.bodySyncPeers →
      i ∈ (onPeerBlockHeaders p batch s).downloadingBodies) := by
  have hs := inv_reachable hr
  have heq : onPeerBlockHeaders p batch s = clearPeerDownload p s := by
    unfold onPeerBlockHeaders
    rw [if_neg hmis]
  rw [heq]
  refine ⟨rfl, rfl, rfl, rfl, rfl, rfl, ?_, ?_, ?_, ?_, ?_⟩
  · exact assignedTo_clear_self p s.headerSyncPeers
  · exact assignedTo_clear_self p s.bodySyncPeers
  · intro q hq
    exact ⟨assignedTo_clear_other hq s.headerSyncPeers,
      assignedTo_clear_other hq s.bodySyncPeers⟩
  · intro q i hq hi
    show i ∈ s.downloadingHeaders.filter
      (fun i => decide (i ∉ assignedTo p s.headerSyncPeers))
    rw [List.mem_filter, decide_eq_true_eq]
    refine ⟨hs.subH (q, i) (mem_assignedTo.1 hi), fun hc => ?_⟩
    exact hq (hs.pairH (q, i) (mem_assignedTo.1 hi) (p, i) (mem_assignedTo.1 hc) rfl)
  · intro q i hq hi
    show i ∈ s.downloadingBodies.filter
      (fun i => decide (i ∉ assignedTo p s.bodySyncPeers))
    rw [List.mem_filter, decide_eq_true_eq]
    refine ⟨hs.subB (q, i) (mem_assignedTo.1 hi), fun hc => ?_⟩
    exact hq (hs.pairB (q, i) (mem_assignedTo.1 hi) (p, i) (mem_assignedTo.1 hc) rfl)

theorem c8_mismatched_batch_rejected_witness :
    onPeerBlockHeaders 0 [(9, demoH1)] demoAssigned = clearPeerDownload 0 demoAssigned ∧
    (onPeerBlockHeaders 0 [(9, demoH1)] demoAssigned).headers = demoAssigned.headers ∧
    assignedTo 0 (onPeerBlockHeaders 0 [(9, demoH1)] demoAssigned).headerSyncPeers = [] :=
  ⟨(c8_mismatched_batch_rejected demoAssigned 0 [(9, demoH1)]
      demoAssigned_reachable (by decide)).1,
   (c8_mismatched_batch_rejected demoAssigned 0 [(9, demoH1)]
      demoAssigned_reachable (by decide)).2.1,
   (c8_mismatched_batch_rejected demoAssigned 0 [(9, demoH1)]
      demoAssigned_reachable (by decide)).2.2.2.2.2.2.1⟩

/-- C3: two stored headers at distinct indices sharing a content identity are
both satisfied by a single body download.  When a body of that identity
arrives and the map's owner index is not yet satisfied, the body-storage step
of `onPeerBlockBodies` stores the body for both indices at once; a second
body of the same identity is short-circuited through `m_headerIdToNumber` as
already satisfied and stores nothing; and no body fetch for either index can
be issued afterwards, so both indices can assemble without a second
download. -/
theorem c3_shared_body_dedup (s : Sync) (b : Body) (n m t : Nat)
    (hhn : ∃ h : Header, (n, h) ∈ s.headers ∧ h.hid = b.bid)
    (hhm : ∃ h : Header, (m, h) ∈ s.headers ∧ h.hid = b.bid)
    (ht : idLookup b.bid s.headerIdToNumber = some t)
    (htb : hasBody s t b.bid = false)
    (hnb : hasBody s n b.bid = false) (hmb : hasBody s m b.bid = false) :
    hasBody (storeBody b s) n b.bid = true ∧
    hasBody (storeBody b s) m b.bid = true ∧
    (∀ b' : Body, b'.bid = b.bid →
      (storeBody b' (storeBody b s)).bodies = (storeBody b s).bodies) ∧
    (∀ q l, n ∈ l ∨ m ∈ l → requestBodies q l (storeBody b s) = storeBody b s) := by
  have hsb : storeBody b s =
      { s with bodies := s.bodies ++ (copyTargets b.bid s).map (fun x => (x, b))
               downloadingBodies := s.downloadingBodies.filter
                 (fun i => decide (i ∉ copyTargets b.bid s))
               bodySyncPeers := s.bodySyncPeers.filter
                 (fun e => decide (e.2 ∉ copyTargets b.bid s)) } := by
    unfold storeBody
    rw [ht]
    dsimp only
    rw [if_neg (by rw [htb]; exact Bool.false_ne_true)]
  have hmemT : ∀ x : Nat, (∃ h : Header, (x, h) ∈ s.headers ∧ h.hid = b.bid) →
      hasBody s x b.bid = false → x ∈ copyTargets b.bid s := by
    rintro x ⟨h, hh, hid⟩ hxb
    unfold copyTargets
    rw [List.mem_map]
    refine ⟨(x, h), ?_, rfl⟩
    rw [List.mem_filter]
    refine ⟨hh, ?_⟩
    rw [Bool.and_eq_true, decide_eq_true_eq, Bool.not_eq_true']
    exact ⟨hid, hxb⟩
  have hbodyIn : ∀ x, x ∈ copyTargets b.bid s →
      hasBody (storeBody b s) x b.bid = true := by
    intro x hx
    rw [hsb, hasBody_iff]
    exact ⟨b, List.mem_append_right _ (List.mem_map.2 ⟨x, hx, rfl⟩), rfl⟩
  refine ⟨hbodyIn n (hmemT n hhn hnb), hbodyIn m (hmemT m hhm hmb), ?_, ?_⟩
  · intro b' hb'
    set s1 := storeBody b s with hs1
    have hid1 : s1.headerIdToNumber = s.headerIdToNumber := by
      rw [hsb]
    have hct : copyTargets b.bid s1 = [] := by
      unfold copyTargets
      rw [List.map_eq_nil_iff, List.filter_eq_nil_iff]
      intro e he
      rw [Bool.and_eq_true, decide_eq_true_eq, Bool.not_eq_true']
      rintro ⟨hide, hnob⟩
      have heS : (e.1, e.2) ∈ s.headers := by
        have he' : e ∈ s.headers := by
          rw [hsb] at he
          exact he
        cases e
        exact he'
      by_cases hb0 : hasBody s e.1 b.bid = true
      · rw [hasBody_iff] at hb0
        obtain ⟨bb, hbb, hbk⟩ := hb0
        have hstill : hasBody s1 e.1 b.bid = true := by
          rw [hsb, hasBody_iff]
          exact ⟨bb, List.mem_append_left _ hbb, hbk⟩
        rw [hstill] at hnob
        cases hnob
      · have hxT : e.1 ∈ copyTargets b.bid s :=
          hmemT e.1 ⟨e.2, heS, hide⟩ (Bool.eq_false_iff.2 hb0)
        have hstill := hbodyIn e.1 hxT
        rw [hstill] at hnob
        cases hnob
    show (storeBody b' s1).bodies = s1.bodies
    unfold storeBody
    rw [hb', hid1, ht]
    dsimp only
    split
    case isTrue => rfl
    case isFalse =>
      rw [hct]
      simp
  · intro q l hnm
    unfold requestBodies
    rw [if_neg]
    rintro ⟨-, hall⟩
    have hdone : ∀ x : Nat, (∃ h : Header, (x, h) ∈ s.headers ∧ h.hid = b.bid) →
        hasBody s x b.bid = false → completeAt (storeBody b s) x = true := by
      rintro x ⟨h, hh, hid⟩ hxb
      refine completeAt_of_pair h b ?_ ?_ hid.symm
      · rw [hsb]
        exact hh
      · rw [hsb]
        exact List.mem_append_right _ (List.mem_map.2 ⟨x, hmemT x ⟨h, hh, hid⟩ hxb, rfl⟩)
    rcases hnm with hx | hx
    · have hfc := (hall n hx).2.2.1
      rw [hdone n hhn hnb] at hfc
      cases hfc
    · have hfc := (hall m hx).2.2.1
      rw [hdone m hhm hmb] at hfc
      cases hfc

/-- Demo state for deduplication: headers at indices 1 and 2 share the
content identity (5, 6) which the map assigns to index 1; no body stored. -/
def demoShared : Sync :=
  { initSync with
      headers := [(1, demoH1), (2, demoH2)]
      headerIdToNumber := [(⟨5, 6⟩, 1)] }

theorem c3_shared_body_dedup_witness :
    hasBody (storeBody demoB1 demoShared) 1 demoB1.bid = true ∧
    hasBody (storeBody demoB1 demoShared) 2 demoB1.bid = true :=
  ⟨(c3_shared_body_dedup demoShared demoB1 1 2 1
      ⟨demoH1, by decide, rfl⟩ ⟨demoH2, by decide, rfl⟩
      (by decide) (by decide) (by decide) (by decide)).1,
   (c3_shared_body_dedup demoShared demoB1 1 2 1
      ⟨demoH1, by decide, rfl⟩ ⟨demoH2, by decide, rfl⟩
      (by decide) (by decide) (by decide) (by decide)).2.1⟩

end BCSync
